import Mathlib

/-!
Verification of the schema-convergence engine: a shallow embedding of the
SQL migration core (src/connectors/sql/migration/migrate.rs, together with
the column decoder in src/connectors/sql/schema/column/decoder.rs and the
value encoder in src/connectors/sql/schema/value/encode.rs), followed by
theorems about the embedded definitions.

Conventions of the embedding:
* pure Rust functions become Lean functions over the same data;
* the pooled connection is replaced by an explicit database state
  (a list of tables, each a list of columns plus a has-records flag);
  every executed statement becomes an event in a trace, and every state
  query reads the explicit state;
* a Rust panic becomes an abort value threaded through the run;
* SQL column types are represented by their rendered type names (the type
  decoder and renderer live outside the analysed sources, and the engine
  only compares types for equality and prints them).
-/

/-- The single-quote character, written numerically. -/
def squote : Char := Char.ofNat 39

/-- The backslash character, written numerically. -/
def bslash : Char := Char.ofNat 92

/-- Modelled from the spec: the closed enumeration of SQL dialects
(the dialect module is outside the analysed sources; the migration engine
branches on exactly these three). -/
inductive SQLDialect
  | sqlite
  | mysql
  | postgresql
deriving DecidableEq, Repr

/-- Modelled from the spec: the identifier-escape character of each
dialect (backtick for MySQL and SQLite, double quote for PostgreSQL). -/
def SQLDialect.escape : SQLDialect → String
  | .sqlite => "`"
  | .mysql => "`"
  | .postgresql => "\""

/-- The dialect-neutral column representation (SQLColumn), with the field
layout used by the column decoder: name, type, not-null flag,
auto-increment flag, optional default literal, primary-key flag,
unique-key flag. -/
structure SQLColumn where
  name : String
  type : String
  not_null : Bool
  auto_increment : Bool
  default : Option String
  primary_key : Bool
  unique_key : Bool
deriving DecidableEq, Repr

/-- The subset of the application value enumeration that the SQL literal
encoder handles (core/value.rs): null, strings, booleans and integers. -/
inductive Value
  | null
  | str (s : String)
  | bool (b : Bool)
  | int (i : Int)
deriving DecidableEq, Repr

/-- From the string encoder: escape the character list of a string for a
SQL literal, replacing each single quote by backslash-quote (the source
loops over the characters pushing them into the result). -/
def sqlEscapeChars : List Char → List Char
  | [] => []
  | c :: rest =>
    if c = squote then bslash :: squote :: sqlEscapeChars rest
    else c :: sqlEscapeChars rest

/-- From `ToSQLInput for String`: wrap the escaped characters in single
quotes.  Note the function takes no dialect argument: the same escaping is
used for every dialect. -/
def String.to_sql_input (s : String) : String :=
  ⟨squote :: (sqlEscapeChars s.data ++ [squote])⟩

/-- From `ToSQLInput for bool`: booleans render as TRUE or FALSE.  The
function takes no dialect argument. -/
def Bool.to_sql_input (b : Bool) : String :=
  if b then "TRUE" else "FALSE"

/-- From `ToSQLString for Value` (encode.rs): render a value as a SQL
literal.  The dialect parameter is received and ignored, exactly as in the
source (`_dialect`). -/
def Value.to_sql_string (v : Value) (_d : SQLDialect) : String :=
  match v with
  | .null => "NULL"
  | .str s => s.to_sql_input
  | .bool b => b.to_sql_input
  | .int i => toString i

/-- Modelled from the spec: the single-quoted literal grammar of a dialect
class that escapes an internal quote by doubling it.  Scans the characters
after the opening quote; a doubled quote contributes one quote to the
content, a single quote closes the literal and must end the input. -/
def parseDoubledAux : List Char → String → Option String
  | [], _ => none
  | c :: rest, acc =>
    if c = squote then
      match rest with
      | [] => some acc
      | c2 :: rest2 =>
        if c2 = squote then parseDoubledAux rest2 (acc.push squote) else none
    else parseDoubledAux rest (acc.push c)

/-- Modelled from the spec: parse a complete literal under the
quote-doubling grammar. -/
def parseDoubled (s : String) : Option String :=
  match s.data with
  | [] => none
  | c :: rest => if c = squote then parseDoubledAux rest "" else none

/-- Modelled from the spec: the single-quoted literal grammar of a dialect
class that escapes with a backslash.  A backslash makes the following
character literal content; an unescaped quote closes the literal and must
end the input. -/
def parseBackslashAux : List Char → String → Option String
  | [], _ => none
  | c :: rest, acc =>
    if c = bslash then
      match rest with
      | [] => none
      | c2 :: rest2 => parseBackslashAux rest2 (acc.push c2)
    else if c = squote then
      match rest with
      | [] => some acc
      | _ :: _ => none
    else parseBackslashAux rest (acc.push c)

/-- Modelled from the spec: parse a complete literal under the
backslash-escaping grammar. -/
def parseBackslash (s : String) : Option String :=
  match s.data with
  | [] => none
  | c :: rest => if c = squote then parseBackslashAux rest "" else none

/-- The introspection row as read by the column decoder (decoder.rs):
the Field, Type, Null, Key and Extra cells of a describe-table result. -/
structure DescribeRow where
  field : String
  typeStr : String
  nullStr : String
  key : String
  extra : String
deriving DecidableEq, Repr

/-- Substring occurrence test, used for the auto-increment check. -/
def containsSub (s pat : String) : Bool :=
  (s.splitOn pat).length > 1

/-- From `ColumnDecoder::decode` (decoder.rs): decode one introspected row
into a column.  The not-null flag is the negation of Null being YES, the
key field decides primary or unique, Extra containing auto_increment sets
the auto-increment flag, and the default field is hardcoded to none. -/
def ColumnDecoder.decode (row : DescribeRow) (_d : SQLDialect) : SQLColumn :=
  { name := row.field
    type := row.typeStr
    not_null := !(row.nullStr = "YES" : Bool)
    auto_increment := containsSub row.extra "auto_increment"
    default := none
    primary_key := row.key = "PRI"
    unique_key := row.key = "UNI" }

/-- The rename-history record attached to a model (`model.migration()`),
holding the ordered list of previously-known table names. -/
structure MigrationRecord where
  renamed : List String
deriving DecidableEq, Repr

/-- One declared column of a model, together with the optional post-action
and optional default that the diff engine attaches to an AddColumn for it.
The post-action is an opaque external collaborator, represented by a
numeric label.  Modelled from the spec: the model collaborator exposes an
ordered column list; AddColumn carries an optional post-action and an
optional default from model metadata. -/
structure AddSpec where
  column : SQLColumn
  action : Option Nat
  dflt : Option Value
deriving DecidableEq, Repr

/-- The model collaborator: table name, virtual flag, optional rename
history, ordered declared columns. -/
structure Model where
  tableName : String
  isVirtual : Bool
  migration : Option MigrationRecord
  specs : List AddSpec
deriving DecidableEq, Repr

/-- From `ColumnDecoder::decode_model_columns` via `From<&Field> for
SQLColumn` (decoder.rs): the desired column set of a model is its declared
columns.  Note `From<&Field>` passes the default as None, so columns
derived from fields never carry a default literal. -/
def decode_model_columns (m : Model) : List SQLColumn :=
  m.specs.map (·.column)

/-- The manipulation variants produced by the diff engine.  Modelled from
the spec: AddColumn(column, optional-post-action, optional-default),
AlterColumn(old, new, optional-post-action), RemoveColumn(name,
optional-post-action), RenameColumn(old-name, new-name). -/
inductive ColumnManipulation
  | addColumn (column : SQLColumn) (action : Option Nat) (dflt : Option Value)
  | alterColumn (oldColumn newColumn : SQLColumn) (action : Option Nat)
  | removeColumn (name : String) (action : Option Nat)
  | renameColumn (oldName newName : String)
deriving DecidableEq, Repr

/-- Modelled from the spec (destructive-default gate): an AddColumn for a
not-null column with no default. -/
def ColumnManipulation.is_add_column_non_null : ColumnManipulation → Bool
  | .addColumn c _ d => c.not_null && d.isNone
  | _ => false

/-- Look a column up by name in a column list. -/
def findByName (cols : List SQLColumn) (n : String) : Option SQLColumn :=
  cols.find? (fun c => c.name = n)

/-- Modelled from the spec (diff engine, step 3): two same-named columns
need an alter exactly when their type, nullability or default differ. -/
def colDiffers (a b : SQLColumn) : Bool :=
  a.type ≠ b.type || a.not_null ≠ b.not_null || a.default ≠ b.default

/-- Modelled from the spec: whether any column present on both sides
differs, i.e. whether the diff requires at least one AlterColumn. -/
def need_to_alter_any_columns (dbCols modelCols : List SQLColumn) : Bool :=
  modelCols.any (fun c =>
    match findByName dbCols c.name with
    | some dbc => colDiffers dbc c
    | none => false)

/-- Modelled from the spec (diff engine, step 3): the manipulation list of
a table.  A desired column absent live becomes AddColumn (carrying the
declared post-action and default), a shared column that differs becomes
AlterColumn, and a live column absent from the desired set becomes
RemoveColumn. -/
def manipulations (dbCols : List SQLColumn) (m : Model) : List ColumnManipulation :=
  (m.specs.filterMap fun s =>
    match findByName dbCols s.column.name with
    | none => some (.addColumn s.column s.action s.dflt)
    | some dbc =>
      if colDiffers dbc s.column then some (.alterColumn dbc s.column s.action)
      else none)
  ++ (dbCols.filterMap fun dbc =>
    if (findByName (decode_model_columns m) dbc.name).isNone then
      some (.removeColumn dbc.name none)
    else none)

/-- The live state of one table: its stored columns (as the DDL created
them) and whether it holds at least one row. -/
structure TableState where
  cols : List SQLColumn
  hasRecords : Bool
deriving DecidableEq, Repr

/-- The live database: an association list from table name to table
state.  This replaces the pooled connection of the source; catalog
queries read it and DDL statements update it. -/
abbrev DBState := List (String × TableState)

/-- From `get_db_user_tables`: the live table-name list. -/
def dbNames (db : DBState) : List String :=
  db.map (·.1)

/-- Look a table up by name. -/
def dbLookup (db : DBState) (t : String) : Option TableState :=
  (db.find? (fun e => e.1 = t)).map (·.2)

/-- From `table_has_records`: whether the table holds at least one row. -/
def table_has_records (db : DBState) (t : String) : Bool :=
  ((dbLookup db t).map (·.hasRecords)).getD false

/-- What introspection does to a stored column: the decoder hardcodes the
default to none (decoder.rs line 28), so the stored default is erased. -/
def zeroDef (c : SQLColumn) : SQLColumn :=
  { c with default := none }

/-- From `SQLMigration::db_columns` (migrate.rs): the live column set as
the diff engine sees it.  For the server dialects every introspected row
passes through `ColumnDecoder::decode`, which erases the stored default
(decoder.rs line 28), so the columns are read back with their defaults
erased.  For SQLite the source branches to
`ColumnDecoder::decode_sqlite_columns`, which is absent from src;
modelled from the spec: SQLite introspection decodes the stored default,
so the columns are read back unchanged. -/
def db_columns (d : SQLDialect) (db : DBState) (t : String) : List SQLColumn :=
  match dbLookup db t with
  | some ts => if d = .sqlite then ts.cols else ts.cols.map zeroDef
  | none => []

/-- Semantics of ALTER TABLE RENAME: the table keeps its state under the
new name. -/
def dbRenameTable (db : DBState) (old new : String) : DBState :=
  db.map (fun e => if e.1 = old then (new, e.2) else e)

/-- Semantics of DROP TABLE. -/
def dbDropTable (db : DBState) (t : String) : DBState :=
  db.filter (fun e => !(e.1 = t : Bool))

/-- Semantics of CREATE TABLE from a model: a fresh table holding the
declared columns and no rows.  (Any same-named entry is displaced; the
engine only creates tables it has not matched live.) -/
def dbCreateTable (db : DBState) (m : Model) : DBState :=
  dbDropTable db m.tableName ++ [(m.tableName, ⟨decode_model_columns m, false⟩)]

/-- Apply a per-table update function to the named table. -/
def dbUpdateTable (db : DBState) (t : String) (f : TableState → TableState) : DBState :=
  db.map (fun e => if e.1 = t then (e.1, f e.2) else e)

/-- Semantics of ALTER TABLE ADD COLUMN. -/
def dbAddColumn (db : DBState) (t : String) (c : SQLColumn) : DBState :=
  dbUpdateTable db t (fun ts => { ts with cols := ts.cols ++ [c] })

/-- Semantics of ALTER TABLE MODIFY (full column redefinition, used by the
dialects with native column-modify syntax): the same-named stored column
is replaced by the new definition. -/
def dbReplaceColumn (db : DBState) (t : String) (c : SQLColumn) : DBState :=
  dbUpdateTable db t (fun ts =>
    { ts with cols := ts.cols.map (fun c0 => if c0.name = c.name then c else c0) })

/-- Semantics of ALTER TABLE DROP COLUMN. -/
def dbRemoveColumn (db : DBState) (t : String) (n : String) : DBState :=
  dbUpdateTable db t (fun ts =>
    { ts with cols := ts.cols.filter (fun c0 => !(c0.name = n : Bool)) })

/-- Semantics of ALTER TABLE RENAME COLUMN. -/
def dbRenameColumn (db : DBState) (t : String) (old new : String) : DBState :=
  dbUpdateTable db t (fun ts =>
    { ts with cols := ts.cols.map (fun c0 => if c0.name = old then { c0 with name := new } else c0) })

/-- From `SQLMigration::psql_alter_clauses` (migrate.rs): the PostgreSQL
clause list for one AlterColumn.  A TYPE clause when the types differ;
then a SET DEFAULT clause when a default appears, a DROP DEFAULT clause
when a default disappears, and — exactly as in the source — a SET DEFAULT
clause when both sides have a default and they are EQUAL (the source
compares with equality, not inequality, so a changed default emits
nothing). -/
def psql_alter_clauses (table : String) (oldC newC : SQLColumn) : List String :=
  let esc := SQLDialect.postgresql.escape
  let name := newC.name
  let typePart : List String :=
    if oldC.type ≠ newC.type then
      ["ALTER TABLE " ++ esc ++ table ++ esc ++ " ALTER COLUMN " ++ esc ++ name ++ esc
        ++ " TYPE " ++ newC.type]
    else []
  let defaultPart : List String :=
    if oldC.default.isNone && newC.default.isSome then
      ["ALTER TABLE " ++ esc ++ table ++ esc ++ " ALTER COLUMN " ++ esc ++ name ++ esc
        ++ " SET DEFAULT " ++ newC.default.getD ""]
    else if oldC.default.isSome && newC.default.isNone then
      ["ALTER TABLE " ++ esc ++ table ++ esc ++ " ALTER COLUMN " ++ esc ++ name ++ esc
        ++ " DROP DEFAULT"]
    else if oldC.default.isSome && newC.default.isSome then
      if oldC.default = newC.default then
        ["ALTER TABLE " ++ esc ++ table ++ esc ++ " ALTER COLUMN " ++ esc ++ name ++ esc
          ++ " SET DEFAULT " ++ newC.default.getD ""]
      else []
    else []
  typePart ++ defaultPart

/-- The clause effect on the stored column: the TYPE clause changes the
type; the default clauses set or drop the stored default per
`psql_alter_clauses`; nullability is never touched because no clause for
it is synthesized. -/
def psqlApplyClauses (c0 oldC newC : SQLColumn) : SQLColumn :=
  let t1 := if oldC.type ≠ newC.type then newC.type else c0.type
  let d1 :=
    if oldC.default.isNone && newC.default.isSome then newC.default
    else if oldC.default.isSome && newC.default.isNone then none
    else if oldC.default.isSome && newC.default.isSome then
      if oldC.default = newC.default then newC.default else c0.default
    else c0.default
  { c0 with type := t1, default := d1 }

/-- Semantics of the PostgreSQL AlterColumn clause sequence. -/
def dbPsqlAlter (db : DBState) (t : String) (oldC newC : SQLColumn) : DBState :=
  dbUpdateTable db t (fun ts =>
    { ts with cols := ts.cols.map (fun c0 =>
        if c0.name = newC.name then psqlApplyClauses c0 oldC newC else c0) })

/-- The statements the engine executes, kept structured so that theorems
can classify them. -/
inductive SQLStmt
  | renameTable (oldName newName : String)
  | createTable (table : String) (cols : List SQLColumn)
  | dropTable (table : String)
  | addColumn (table : String) (column : SQLColumn)
  | modifyColumn (table : String) (column : SQLColumn)
  | psqlAlter (stmt : String)
  | dropColumn (table : String) (name : String)
  | renameColumn (table : String) (oldName newName : String)
deriving DecidableEq, Repr

/-- One observable step of a run: a statement execution or a post-action
invocation (carrying the evaluation context it receives). -/
inductive MEvent
  | exec (s : SQLStmt)
  | runAction (a : Nat) (ctx : Value)
deriving DecidableEq, Repr

/-- The fatal aborts of the engine (Rust panics). -/
inductive MigAbort
  | sqliteCannotAlter (table : String)
  | addNonNullWithRecords (table : String) (column : String)
deriving DecidableEq, Repr

/-- From the manipulation loop of `SQLMigration::migrate` (migrate.rs
lines 190-239): execute one manipulation.  AddColumn re-checks the record
count and panics for a not-null no-default add on a populated table, then
executes ADD COLUMN (with the rendered default attached when supplied)
and runs the post-action afterwards with a fresh null context.
AlterColumn uses MODIFY off PostgreSQL and the clause list on PostgreSQL.
RemoveColumn runs the post-action first, then DROP COLUMN. -/
def exec_manipulation (d : SQLDialect) (db : DBState) (t : String) :
    ColumnManipulation → (List MEvent × Option MigAbort × DBState)
  | .addColumn c act dflt =>
    if c.not_null && dflt.isNone && table_has_records db t then
      ([], some (.addNonNullWithRecords t c.name), db)
    else
      let c2 := match dflt with
        | some v => { c with default := some (v.to_sql_string d) }
        | none => c
      let evs := [MEvent.exec (.addColumn t c2)] ++
        (match act with
         | some a => [MEvent.runAction a Value.null]
         | none => [])
      (evs, none, dbAddColumn db t c2)
  | .alterColumn oldC newC _act =>
    if d = .postgresql then
      ((psql_alter_clauses t oldC newC).map (fun s => MEvent.exec (.psqlAlter s)),
        none, dbPsqlAlter db t oldC newC)
    else
      ([MEvent.exec (.modifyColumn t newC)], none, dbReplaceColumn db t newC)
  | .removeColumn n act =>
    ((match act with
      | some a => [MEvent.runAction a Value.null]
      | none => []) ++ [MEvent.exec (.dropColumn t n)],
      none, dbRemoveColumn db t n)
  | .renameColumn o n =>
    ([MEvent.exec (.renameColumn t o n)], none, dbRenameColumn db t o n)

/-- Execute a manipulation list in order, stopping at the first abort. -/
def exec_manipulations (d : SQLDialect) (db : DBState) (t : String) :
    List ColumnManipulation → (List MEvent × Option MigAbort × DBState)
  | [] => ([], none, db)
  | mp :: rest =>
    let r := exec_manipulation d db t mp
    match r.2.1 with
    | some a => (r.1, some a, r.2.2)
    | none =>
      let r2 := exec_manipulations d r.2.2 t rest
      (r.1 ++ r2.1, r2.2.1, r2.2.2)

/-- The result of processing one model or a model list: the event trace,
the abort (if the run panicked), the database state and the live-tables
working set. -/
structure StepResult where
  trace : List MEvent
  abort : Option MigAbort
  db : DBState
  ws : List String
deriving DecidableEq, Repr

/-- From `SQLMigration::migrate` lines 152-164: the rename-history step.
If the working set lacks the model table name, the history is scanned in
declared order; the first previously-known name present live is renamed to
the current name (one RENAME statement), removed from the working set, and
the current name is appended. -/
def renameStep (db : DBState) (ws : List String) (m : Model) :
    (List MEvent × DBState × List String) :=
  match m.migration with
  | some mig =>
    if m.tableName ∈ ws then ([], db, ws)
    else
      match mig.renamed.find? (fun old => decide (old ∈ ws)) with
      | some old =>
        ([MEvent.exec (.renameTable old m.tableName)],
          dbRenameTable db old m.tableName,
          ws.erase old ++ [m.tableName])
      | none => ([], db, ws)
  | none => ([], db, ws)

/-- From `SQLMigration::migrate` lines 149-242: process one declared
model.  Virtual models are skipped.  After the rename step, a missing
table is created; an existing table is removed from the working set, the
SQLite alter gate is checked, and then either the destructive
drop-and-recreate branch runs (table has records and some AddColumn is
not-null with no default) or the manipulation list is executed. -/
def processModel (d : SQLDialect) (db : DBState) (ws : List String) (m : Model) :
    StepResult :=
  if m.isVirtual then ⟨[], none, db, ws⟩
  else
    let t := m.tableName
    let r0 := renameStep db ws m
    let ev0 := r0.1
    let db0 := r0.2.1
    let ws0 := r0.2.2
    if t ∈ ws0 then
      let ws1 := ws0.erase t
      let modelCols := decode_model_columns m
      let dbCols := db_columns d db0 t
      if need_to_alter_any_columns dbCols modelCols && (d = .sqlite : Bool) then
        ⟨ev0, some (.sqliteCannotAlter t), db0, ws1⟩
      else
        let records := table_has_records db0 t
        let manips := manipulations dbCols m
        if records && manips.any (·.is_add_column_non_null) then
          ⟨ev0 ++ [MEvent.exec (.dropTable t), MEvent.exec (.createTable t modelCols)],
            none, dbCreateTable (dbDropTable db0 t) m, ws1⟩
        else
          let r := exec_manipulations d db0 t manips
          ⟨ev0 ++ r.1, r.2.1, r.2.2, ws1⟩
    else
      ⟨ev0 ++ [MEvent.exec (.createTable t (decode_model_columns m))],
        none, dbCreateTable db0 m, ws0⟩

/-- Process the declared models in order, stopping at the first abort. -/
def runModels (d : SQLDialect) (db : DBState) (ws : List String) :
    List Model → StepResult
  | [] => ⟨[], none, db, ws⟩
  | m :: rest =>
    let r := processModel d db ws m
    match r.abort with
    | some a => ⟨r.trace, some a, r.db, r.ws⟩
    | none =>
      let r2 := runModels d r.db r.ws rest
      ⟨r.trace ++ r2.trace, r2.abort, r2.db, r2.ws⟩

/-- From `SQLMigration::migrate` (migrate.rs lines 145-247): the whole
convergence run.  The working set starts as the live table list; after the
model pass, every remaining working-set entry is dropped.  The returned
working set is the drop set (empty-trace-relevant only when no abort
happened, since a Rust panic stops everything).  Note the function
receives no reset flag: the source signature is
`migrate(dialect, pool, models)`. -/
def migrate (d : SQLDialect) (db : DBState) (models : List Model) : StepResult :=
  let r := runModels d db (dbNames db) models
  match r.abort with
  | some _ => r
  | none =>
    ⟨r.trace ++ r.ws.map (fun t => MEvent.exec (.dropTable t)),
      none, r.ws.foldl (fun acc t => dbDropTable acc t) r.db, r.ws⟩

/-! ## Concrete inputs used by individual claim theorems -/

/-- The string OBrien with an internal single quote, the round-trip
example of the spec. -/
def obrienStr : String := "O" ++ String.singleton squote ++ "Brien"

/-- The quote-doubled literal the spec expects for that string. -/
def obrienDoubled : String :=
  String.singleton squote ++ "O" ++ String.singleton squote ++
    String.singleton squote ++ "Brien" ++ String.singleton squote

/-- Modelled from the spec: the designated truthy literal of a
SQLite-class dialect without native booleans (the 1 of 1/0). -/
def sqliteTruthyLiteral : String := "1"

/-- C1 scenario: the live users table with one populated row and only an
id column. -/
def c1IdCol : SQLColumn := ⟨"id", "integer", true, true, none, true, false⟩

/-- C1 scenario: the declared not-null age column with no default. -/
def c1AgeCol : SQLColumn := ⟨"age", "integer", true, false, none, false, false⟩

/-- C1 scenario: the declared users model adding age. -/
def c1Model : Model := ⟨"users", false, none, [⟨c1IdCol, none, none⟩, ⟨c1AgeCol, none, none⟩]⟩

/-- C1 scenario: live database where users exists and has records. -/
def c1DB : DBState := [("users", ⟨[c1IdCol], true⟩)]

/-- C3 scenario: live id column, nullable. -/
def c3IdOld : SQLColumn := ⟨"id", "integer", false, false, none, false, false⟩

/-- C3 scenario: declared id column, not null — a nullability-only
difference. -/
def c3IdNew : SQLColumn := ⟨"id", "integer", true, false, none, false, false⟩

/-- C3 scenario: the declared model. -/
def c3Model : Model := ⟨"users", false, none, [⟨c3IdNew, none, none⟩]⟩

/-- C3 scenario: the live database. -/
def c3DB : DBState := [("users", ⟨[c3IdOld], false⟩)]

/-- C4 scenario: a live status column. -/
def c4StatusCol : SQLColumn := ⟨"status", "text", false, false, none, false, false⟩

/-- C4 scenario: a declared not-null column with no default. -/
def c4AgeCol : SQLColumn := ⟨"age", "integer", true, false, none, false, false⟩

/-- C4 scenario: model named cur with old in its rename history, keeping
status and adding the not-null age column. -/
def c4Model : Model :=
  ⟨"cur", false, some ⟨["old"]⟩, [⟨c4StatusCol, none, none⟩, ⟨c4AgeCol, none, none⟩]⟩

/-- C4 scenario: the live database has old with records. -/
def c4DB : DBState := [("old", ⟨[c4StatusCol], true⟩)]

/-- C6 scenario: live status column, nullable. -/
def c6StatusOld : SQLColumn := ⟨"status", "text", false, false, none, false, false⟩

/-- C6 scenario: declared status column, not null — an alter is
required. -/
def c6StatusNew : SQLColumn := ⟨"status", "text", true, false, none, false, false⟩

/-- C6 scenario: model named cur with old in its rename history. -/
def c6Model : Model := ⟨"cur", false, some ⟨["old"]⟩, [⟨c6StatusNew, none, none⟩]⟩

/-- C6 scenario: the live database has old. -/
def c6DB : DBState := [("old", ⟨[c6StatusOld], false⟩)]

/-! ## Claim theorems -/

/-- C10: for every introspected row and dialect, the decoded column's
default field is none, regardless of the live column's actual default —
a live default is never visible to the diff engine. -/
theorem c10_decode_default_none :
    ∀ (row : DescribeRow) (d : SQLDialect),
      (ColumnDecoder.decode row d).default = none := by
  intro row d
  rfl

/-- C8 counterexample: at the concrete input true on the SQLite dialect,
the encoder renders TRUE, not the designated SQLite-class truthy literal
1 — the encoder has no dialect-specific boolean rendering at all. -/
theorem c8_counterexample :
    Value.to_sql_string (Value.bool true) SQLDialect.sqlite = "TRUE" ∧
      sqliteTruthyLiteral = "1" ∧
      Value.to_sql_string (Value.bool true) SQLDialect.sqlite ≠ sqliteTruthyLiteral := by
  refine ⟨rfl, rfl, ?_⟩
  decide

/-- C8 (amended): for every boolean application value and every dialect,
the encoder renders the keyword TRUE or FALSE; no dialect receives a 1/0
rendering. -/
theorem c8_bool_render_uniform :
    ∀ (d : SQLDialect) (b : Bool),
      Value.to_sql_string (Value.bool b) d = if b then "TRUE" else "FALSE" := by
  intro d b
  cases b <;> rfl

/-- C7 counterexample: encoding the OBrien string (which contains an
internal quote) does not produce the quote-doubled form, and the produced
literal does not parse back under the quote-doubling grammar — the
encoder backslash-escapes for every dialect. -/
theorem c7_counterexample :
    parseDoubled (Value.to_sql_string (Value.str obrienStr) SQLDialect.postgresql) = none ∧
      Value.to_sql_string (Value.str obrienStr) SQLDialect.postgresql ≠ obrienDoubled := by
  constructor
  · decide
  · decide


/-- Scanning step of the backslash grammar on an ordinary character. -/
theorem parseBackslashAux_cons (c : Char) (rest : List Char) (acc : String)
    (hc : ¬(c = bslash)) (hq : ¬(c = squote)) :
    parseBackslashAux (c :: rest) acc = parseBackslashAux rest (acc.push c) := by
  conv_lhs => rw [parseBackslashAux.eq_def]
  simp [hc, hq]

/-- Auxiliary for the backslash round-trip: scanning the escaped body
followed by the closing quote yields the accumulator extended by the
original characters, provided the original text contains no backslash. -/
theorem parseBackslashAux_escape (l : List Char) (acc : String)
    (h : bslash ∉ l) :
    parseBackslashAux (sqlEscapeChars l ++ [squote]) acc = some ⟨acc.data ++ l⟩ := by
  induction l generalizing acc with
  | nil =>
    simp only [sqlEscapeChars, List.nil_append, parseBackslashAux]
    norm_num [show ¬(squote = bslash) by decide]
  | cons c rest ih =>
    have hc : ¬(c = bslash) := fun hh => h (hh ▸ List.mem_cons_self c rest)
    have hrest : bslash ∉ rest := fun hh => h (List.mem_cons_of_mem c hh)
    by_cases hq : c = squote
    · subst hq
      simp only [sqlEscapeChars, if_pos rfl, List.cons_append, parseBackslashAux,
        List.append_eq]
      norm_num [show (bslash = bslash) by rfl]
      rw [ih (acc.push squote) hrest]
      simp [String.data_push, List.append_assoc]
    · rw [sqlEscapeChars, if_neg hq, List.cons_append,
        parseBackslashAux_cons c _ acc hc hq, ih (acc.push c) hrest]
      simp [String.data_push, List.append_assoc]

/-- C7 (amended): string encoding is dialect-independent — for every
dialect the internal quote is escaped by a backslash, never by doubling —
and the produced literal parses back to the original string under the
backslash-escaping grammar, for any string free of backslashes. -/
theorem c7_backslash_roundtrip (s : String) (h : bslash ∉ s.data) :
    ∀ d : SQLDialect,
      Value.to_sql_string (Value.str s) d = s.to_sql_input ∧
        parseBackslash (Value.to_sql_string (Value.str s) d) = some s := by
  intro d
  refine ⟨rfl, ?_⟩
  show parseBackslash s.to_sql_input = some s
  unfold String.to_sql_input parseBackslash
  simp only [if_pos rfl]
  rw [parseBackslashAux_escape s.data "" h]
  cases s
  rfl

/-- C7 witness: the round-trip theorem applied at the OBrien string on
the MySQL dialect. -/
theorem c7_backslash_roundtrip_witness :
    bslash ∉ obrienStr.data ∧
      (Value.to_sql_string (Value.str obrienStr) SQLDialect.mysql = obrienStr.to_sql_input ∧
        parseBackslash (Value.to_sql_string (Value.str obrienStr) SQLDialect.mysql) =
          some obrienStr) :=
  ⟨by decide, c7_backslash_roundtrip obrienStr (by decide) SQLDialect.mysql⟩

/-- C2: evaluation of `psql_alter_clauses` at the failing input.  With
the type unchanged and the default changed from 1 to 2, the synthesized
statement list is empty — no SET DEFAULT is emitted for a changed
default — while with the default unchanged (1 to 1) a redundant SET
DEFAULT statement is emitted: the equality test in the both-sides-present
branch is inverted with respect to the documented behaviour. -/
theorem c2_psql_default_clause_inverted :
    psql_alter_clauses "t"
        ⟨"c", "integer", true, false, some "1", false, false⟩
        ⟨"c", "integer", true, false, some "2", false, false⟩ = [] ∧
      psql_alter_clauses "t"
        ⟨"c", "integer", true, false, some "1", false, false⟩
        ⟨"c", "integer", true, false, some "1", false, false⟩ =
        ["ALTER TABLE \"t\" ALTER COLUMN \"c\" SET DEFAULT 1"] ∧
      psql_alter_clauses "t"
        ⟨"c", "integer", true, false, none, false, false⟩
        ⟨"c", "integer", true, false, some "1", false, false⟩ =
        ["ALTER TABLE \"t\" ALTER COLUMN \"c\" SET DEFAULT 1"] ∧
      psql_alter_clauses "t"
        ⟨"c", "integer", true, false, some "1", false, false⟩
        ⟨"c", "integer", true, false, none, false, false⟩ =
        ["ALTER TABLE \"t\" ALTER COLUMN \"c\" DROP DEFAULT"] ∧
      psql_alter_clauses "t"
        ⟨"c", "integer", true, false, none, false, false⟩
        ⟨"c", "text", true, false, none, false, false⟩ =
        ["ALTER TABLE \"t\" ALTER COLUMN \"c\" TYPE text"] := by
  refine ⟨rfl, rfl, rfl, rfl, rfl⟩

/-- The column an AddColumn statement carries: the declared column, with
the rendered default literal attached when the manipulation supplies a
default value. -/
def addColumnRendered (d : SQLDialect) (c : SQLColumn) (dflt : Option Value) : SQLColumn :=
  match dflt with
  | some v => { c with default := some (v.to_sql_string d) }
  | none => c

/-- C9: a RemoveColumn manipulation runs its post-action strictly before
its DROP COLUMN statement, and an AddColumn manipulation runs its
post-action strictly after its ADD COLUMN statement (when the add does
not abort, e.g. on a table without records); each post-action receives
the fresh null evaluation context. -/
theorem c9_post_action_order :
    ∀ (d : SQLDialect) (db : DBState) (t n : String) (a : Nat) (c : SQLColumn)
      (dflt : Option Value),
      exec_manipulation d db t (.removeColumn n (some a)) =
        ([MEvent.runAction a Value.null, MEvent.exec (.dropColumn t n)],
          none, dbRemoveColumn db t n) ∧
      (table_has_records db t = false →
        exec_manipulation d db t (.addColumn c (some a) dflt) =
          ([MEvent.exec (.addColumn t (addColumnRendered d c dflt)),
              MEvent.runAction a Value.null],
            none, dbAddColumn db t (addColumnRendered d c dflt))) := by
  intro d db t n a c dflt
  constructor
  · rfl
  · intro h
    cases dflt <;> simp [exec_manipulation, h, addColumnRendered]

/-- C9 witness: the ordering theorem applied at a concrete manipulation
pair on an empty table, with the no-records hypothesis discharged. -/
theorem c9_post_action_order_witness :
    exec_manipulation SQLDialect.mysql [("t", ⟨[], false⟩)] "t"
        (.removeColumn "x" (some 7)) =
        ([MEvent.runAction 7 Value.null, MEvent.exec (.dropColumn "t" "x")],
          none, dbRemoveColumn [("t", ⟨[], false⟩)] "t" "x") ∧
      exec_manipulation SQLDialect.mysql [("t", ⟨[], false⟩)] "t"
        (.addColumn ⟨"y", "integer", true, false, none, false, false⟩ (some 7) none) =
        ([MEvent.exec (.addColumn "t" (addColumnRendered SQLDialect.mysql
            ⟨"y", "integer", true, false, none, false, false⟩ none)),
            MEvent.runAction 7 Value.null],
          none, dbAddColumn [("t", ⟨[], false⟩)] "t"
            (addColumnRendered SQLDialect.mysql
              ⟨"y", "integer", true, false, none, false, false⟩ none)) :=
  ⟨(c9_post_action_order SQLDialect.mysql [("t", ⟨[], false⟩)] "t" "x" 7
      ⟨"y", "integer", true, false, none, false, false⟩ none).1,
    (c9_post_action_order SQLDialect.mysql [("t", ⟨[], false⟩)] "t" "x" 7
      ⟨"y", "integer", true, false, none, false, false⟩ none).2 (by decide)⟩

/-- C1: evaluation of the whole convergence run at the failing input.
The users table exists live, holds records, and the manipulation list
contains an AddColumn for a not-null column with no default; yet the run
does not abort — it executes DROP TABLE followed by CREATE TABLE, a
destructive recreate performed with no reset authorization (the migrate
entry point takes no reset flag at all). -/
theorem c1_implicit_destructive_recreate :
    table_has_records c1DB "users" = true ∧
      (manipulations (db_columns .mysql c1DB "users") c1Model).any
        (·.is_add_column_non_null) = true ∧
      (migrate .mysql c1DB [c1Model]).abort = none ∧
      (migrate .mysql c1DB [c1Model]).trace =
        [MEvent.exec (.dropTable "users"),
          MEvent.exec (.createTable "users" [c1IdCol, c1AgeCol])] := by
  refine ⟨rfl, by decide, by decide, by decide⟩

/-- C3 counterexample: on PostgreSQL, a model whose only difference from
the live table is a nullability change produces a non-empty manipulation
list on the second run (indeed the state reaches a fixpoint where every
run keeps requiring the same AlterColumn, because the synthesized clause
list never alters nullability). -/
theorem c3_counterexample :
    (migrate .postgresql c3DB [c3Model]).abort = none ∧
      (migrate .postgresql c3DB [c3Model]).db = c3DB ∧
      manipulations (db_columns .postgresql (migrate .postgresql c3DB [c3Model]).db "users")
        c3Model ≠ [] := by
  refine ⟨by decide, by decide, by decide⟩

/-- C4 counterexample: a model whose table is reached through rename
history, but whose renamed table has records while the diff adds a
not-null column, receives one RENAME and additionally a DROP TABLE and a
CREATE TABLE in the same run — the claimed zero CREATE/DROP does not
hold unconditionally. -/
theorem c4_counterexample :
    (migrate .mysql c4DB [c4Model]).abort = none ∧
      (migrate .mysql c4DB [c4Model]).trace =
        [MEvent.exec (.renameTable "old" "cur"),
          MEvent.exec (.dropTable "cur"),
          MEvent.exec (.createTable "cur" [c4StatusCol, c4AgeCol])] := by
  refine ⟨by decide, by decide⟩

/-- C6 counterexample: on SQLite, when the table is reached through
rename history and the diff then requires an AlterColumn, the run does
abort — but only after the RENAME DDL statement for that table has
already been executed, so the abort does not precede every DDL statement
for the table. -/
theorem c6_counterexample :
    (migrate .sqlite c6DB [c6Model]).abort = some (.sqliteCannotAlter "cur") ∧
      (migrate .sqlite c6DB [c6Model]).trace =
        [MEvent.exec (.renameTable "old" "cur")] := by
  refine ⟨by decide, by decide⟩

/-- Case characterization of the rename step: either it does nothing, or
the table name is absent from the working set, the history scan finds a
live previous name, and the step renames it. -/
theorem renameStep_char (db : DBState) (ws : List String) (m : Model) :
    renameStep db ws m = ([], db, ws) ∨
      ∃ mig old, m.migration = some mig ∧ m.tableName ∉ ws ∧
        mig.renamed.find? (fun old => decide (old ∈ ws)) = some old ∧
        renameStep db ws m =
          ([MEvent.exec (.renameTable old m.tableName)],
            dbRenameTable db old m.tableName, ws.erase old ++ [m.tableName]) := by
  cases hm : m.migration with
  | none => left; simp [renameStep, hm]
  | some mig =>
    by_cases hc : m.tableName ∈ ws
    · left; simp [renameStep, hm, hc]
    · cases hf : mig.renamed.find? (fun old => decide (old ∈ ws)) with
      | none => left; simp [renameStep, hm, hc, hf]
      | some old =>
        right
        refine ⟨mig, old, rfl, hc, hf, ?_⟩
        simp [renameStep, hm, hc, hf]

/-- Virtual models are skipped entirely. -/
theorem processModel_virtual (d : SQLDialect) (db : DBState) (ws : List String)
    (m : Model) (h : m.isVirtual = true) :
    processModel d db ws m = ⟨[], none, db, ws⟩ := by
  simp [processModel, h]

/-- Branch equation: the table is still missing after the rename step, so
it is created. -/
theorem processModel_create (d : SQLDialect) (db : DBState) (ws : List String)
    (m : Model) (h : m.isVirtual = false)
    (h2 : m.tableName ∉ (renameStep db ws m).2.2) :
    processModel d db ws m =
      ⟨(renameStep db ws m).1 ++
          [MEvent.exec (.createTable m.tableName (decode_model_columns m))],
        none, dbCreateTable (renameStep db ws m).2.1 m, (renameStep db ws m).2.2⟩ := by
  simp [processModel, h, h2]

/-- Branch equation: the table exists, an alter is needed and the dialect
is SQLite — the run aborts, with only the rename-step trace emitted. -/
theorem processModel_abort (d : SQLDialect) (db : DBState) (ws : List String)
    (m : Model) (h : m.isVirtual = false)
    (h2 : m.tableName ∈ (renameStep db ws m).2.2)
    (h3 : (need_to_alter_any_columns (db_columns d (renameStep db ws m).2.1 m.tableName)
        (decode_model_columns m) && (d = .sqlite : Bool)) = true) :
    processModel d db ws m =
      ⟨(renameStep db ws m).1, some (.sqliteCannotAlter m.tableName),
        (renameStep db ws m).2.1, (renameStep db ws m).2.2.erase m.tableName⟩ := by
  have h3a := h3
  rw [Bool.and_eq_true] at h3a
  have hds : d = .sqlite := of_decide_eq_true h3a.2
  subst hds
  simp [processModel, h, h2, h3a.1]

/-- Branch equation: the table exists, has records, and some AddColumn is
not-null without default — the destructive drop-and-recreate branch. -/
theorem processModel_destructive (d : SQLDialect) (db : DBState) (ws : List String)
    (m : Model) (h : m.isVirtual = false)
    (h2 : m.tableName ∈ (renameStep db ws m).2.2)
    (h3 : (need_to_alter_any_columns (db_columns d (renameStep db ws m).2.1 m.tableName)
        (decode_model_columns m) && (d = .sqlite : Bool)) = false)
    (h4 : (table_has_records (renameStep db ws m).2.1 m.tableName &&
        (manipulations (db_columns d (renameStep db ws m).2.1 m.tableName) m).any
          (·.is_add_column_non_null)) = true) :
    processModel d db ws m =
      ⟨(renameStep db ws m).1 ++
          [MEvent.exec (.dropTable m.tableName),
            MEvent.exec (.createTable m.tableName (decode_model_columns m))],
        none, dbCreateTable (dbDropTable (renameStep db ws m).2.1 m.tableName) m,
        (renameStep db ws m).2.2.erase m.tableName⟩ := by
  simp [processModel, h, h2, h3, h4]

/-- Branch equation: the table exists and the manipulation list is
executed incrementally. -/
theorem processModel_exec (d : SQLDialect) (db : DBState) (ws : List String)
    (m : Model) (h : m.isVirtual = false)
    (h2 : m.tableName ∈ (renameStep db ws m).2.2)
    (h3 : (need_to_alter_any_columns (db_columns d (renameStep db ws m).2.1 m.tableName)
        (decode_model_columns m) && (d = .sqlite : Bool)) = false)
    (h4 : (table_has_records (renameStep db ws m).2.1 m.tableName &&
        (manipulations (db_columns d (renameStep db ws m).2.1 m.tableName) m).any
          (·.is_add_column_non_null)) = false) :
    processModel d db ws m =
      ⟨(renameStep db ws m).1 ++
          (exec_manipulations d (renameStep db ws m).2.1 m.tableName
            (manipulations (db_columns d (renameStep db ws m).2.1 m.tableName) m)).1,
        (exec_manipulations d (renameStep db ws m).2.1 m.tableName
          (manipulations (db_columns d (renameStep db ws m).2.1 m.tableName) m)).2.1,
        (exec_manipulations d (renameStep db ws m).2.1 m.tableName
          (manipulations (db_columns d (renameStep db ws m).2.1 m.tableName) m)).2.2,
        (renameStep db ws m).2.2.erase m.tableName⟩ := by
  simp [processModel, h, h2, h3, h4]

/-- Event classifier: a DROP TABLE statement for the given table. -/
def isDropTableFor (t : String) : MEvent → Bool
  | .exec (.dropTable t2) => t2 = t
  | _ => false

/-- Event classifier: a CREATE TABLE statement for the given table. -/
def isCreateFor (t : String) : MEvent → Bool
  | .exec (.createTable t2 _) => t2 = t
  | _ => false

/-- Event classifier: a table rename whose target is the given table. -/
def isRenameToFor (t : String) : MEvent → Bool
  | .exec (.renameTable _ n) => n = t
  | _ => false

/-- Number of events in a trace satisfying a classifier. -/
def countEv (p : MEvent → Bool) (tr : List MEvent) : Nat :=
  (tr.filter p).length

/-- Event counting distributes over trace concatenation. -/
theorem countEv_append (p : MEvent → Bool) (a b : List MEvent) :
    countEv p (a ++ b) = countEv p a + countEv p b := by
  simp [countEv]

/-- Executing a single column manipulation emits no table-level
statements: no DROP TABLE, no CREATE TABLE, no table rename. -/
theorem exec_manipulation_table_counts (d : SQLDialect) (db : DBState)
    (t t' : String) (mp : ColumnManipulation) :
    countEv (isDropTableFor t') (exec_manipulation d db t mp).1 = 0 ∧
      countEv (isCreateFor t') (exec_manipulation d db t mp).1 = 0 ∧
      countEv (isRenameToFor t') (exec_manipulation d db t mp).1 = 0 := by
  cases mp with
  | addColumn c act dflt =>
    cases dflt <;> cases act <;>
      simp [exec_manipulation, countEv, isDropTableFor, isCreateFor, isRenameToFor] <;>
      split <;> simp [countEv, isDropTableFor, isCreateFor, isRenameToFor]
  | alterColumn oldC newC act =>
    by_cases hp : d = .postgresql <;>
      simp [exec_manipulation, hp, countEv, isDropTableFor, isCreateFor, isRenameToFor,
        List.filter_map]
  | removeColumn n act =>
    cases act <;> simp [exec_manipulation, countEv, isDropTableFor, isCreateFor, isRenameToFor]
  | renameColumn o n =>
    simp [exec_manipulation, countEv, isDropTableFor, isCreateFor, isRenameToFor]

/-- Executing a manipulation list emits no table-level statements. -/
theorem exec_manipulations_table_counts (d : SQLDialect) (t t' : String) :
    ∀ (ms : List ColumnManipulation) (db : DBState),
      countEv (isDropTableFor t') (exec_manipulations d db t ms).1 = 0 ∧
        countEv (isCreateFor t') (exec_manipulations d db t ms).1 = 0 ∧
        countEv (isRenameToFor t') (exec_manipulations d db t ms).1 = 0 := by
  intro ms
  induction ms with
  | nil => intro db; simp [exec_manipulations, countEv]
  | cons mp rest ih =>
    intro db
    have h1 := exec_manipulation_table_counts d db t t' mp
    simp only [exec_manipulations]
    cases hab : (exec_manipulation d db t mp).2.1 with
    | some a => simpa [hab] using h1
    | none =>
      have h2 := ih (exec_manipulation d db t mp).2.2
      simp [hab, countEv_append, h1.1, h1.2.1, h1.2.2, h2.1, h2.2.1, h2.2.2]

/-- A per-table update that does not change the record flag leaves the
record query unchanged for every table. -/
theorem dbUpdateTable_hasRecords (db : DBState) (t t' : String)
    (f : TableState → TableState) (hf : ∀ ts, (f ts).hasRecords = ts.hasRecords) :
    table_has_records (dbUpdateTable db t f) t' = table_has_records db t' := by
  induction db with
  | nil => rfl
  | cons e rest ih =>
    by_cases he : e.1 = t <;> by_cases he2 : e.1 = t' <;>
      simp_all [dbUpdateTable, table_has_records, dbLookup, hf]

/-- Column-level DDL never changes whether a table has records. -/
theorem exec_manipulation_hasRecords (d : SQLDialect) (db : DBState)
    (t t' : String) (mp : ColumnManipulation) :
    table_has_records (exec_manipulation d db t mp).2.2 t' = table_has_records db t' := by
  cases mp with
  | addColumn c act dflt =>
    cases dflt <;> cases act <;>
      simp only [exec_manipulation] <;> split <;>
      simp [dbAddColumn, dbUpdateTable_hasRecords]
  | alterColumn oldC newC act =>
    by_cases hp : d = .postgresql <;>
      simp [exec_manipulation, hp, dbPsqlAlter, dbReplaceColumn, dbUpdateTable_hasRecords]
  | removeColumn n act =>
    cases act <;> simp [exec_manipulation, dbRemoveColumn, dbUpdateTable_hasRecords]
  | renameColumn o n =>
    simp [exec_manipulation, dbRenameColumn, dbUpdateTable_hasRecords]

/-- The manipulation executor cannot abort when the table has no records
or when no manipulation is a not-null add without default — the condition
the destructive-branch guard has already checked. -/
theorem exec_manipulations_no_abort (d : SQLDialect) (t : String) :
    ∀ (ms : List ColumnManipulation) (db : DBState),
      (table_has_records db t = false ∨
        ∀ mp ∈ ms, mp.is_add_column_non_null = false) →
      (exec_manipulations d db t ms).2.1 = none := by
  intro ms
  induction ms with
  | nil => intro db _; rfl
  | cons mp rest ih =>
    intro db h
    have hab : (exec_manipulation d db t mp).2.1 = none := by
      cases mp with
      | addColumn c act dflt =>
        rcases h with h | h
        · simp only [exec_manipulation]
          split
          · rename_i hcond
            rw [h] at hcond
            simp at hcond
          · rfl
        · have hfalse : (c.not_null && dflt.isNone) = false :=
            h (.addColumn c act dflt) (List.mem_cons_self _ _)
          simp only [exec_manipulation]
          split
          · rename_i hcond
            rw [Bool.and_eq_true] at hcond
            rw [hfalse] at hcond
            simp at hcond
          · rfl
      | alterColumn oldC newC act =>
        by_cases hp : d = .postgresql <;> simp [exec_manipulation, hp]
      | removeColumn n act => cases act <;> rfl
      | renameColumn o n => rfl
    simp only [exec_manipulations, hab]
    apply ih
    rcases h with h | h
    · left
      rw [exec_manipulation_hasRecords, h]
    · right
      intro mp2 hmp2
      exact h mp2 (List.mem_cons_of_mem _ hmp2)

/-- The working set after one model: erase the table name when present
after the rename step, otherwise unchanged. -/
theorem processModel_ws_eq (d : SQLDialect) (db : DBState) (ws : List String)
    (m : Model) (h : m.isVirtual = false) :
    (processModel d db ws m).ws =
      if m.tableName ∈ (renameStep db ws m).2.2
      then (renameStep db ws m).2.2.erase m.tableName
      else (renameStep db ws m).2.2 := by
  by_cases h2 : m.tableName ∈ (renameStep db ws m).2.2
  · rw [if_pos h2]
    cases h3 : (need_to_alter_any_columns (db_columns d (renameStep db ws m).2.1 m.tableName)
        (decode_model_columns m) && (d = .sqlite : Bool)) with
    | true => rw [processModel_abort d db ws m h h2 h3]
    | false =>
      cases h4 : (table_has_records (renameStep db ws m).2.1 m.tableName &&
          (manipulations (db_columns d (renameStep db ws m).2.1 m.tableName) m).any
            (·.is_add_column_non_null)) with
      | true => rw [processModel_destructive d db ws m h h2 h3 h4]
      | false => rw [processModel_exec d db ws m h h2 h3 h4]
  · rw [processModel_create d db ws m h h2, if_neg h2]

/-- The rename step leaves the working set unchanged or replaces a live
previous name with the model name at the end. -/
theorem renameStep_ws_id_or (db : DBState) (ws : List String) (m : Model) :
    (renameStep db ws m).2.2 = ws ∨
      ∃ old, m.tableName ∉ ws ∧ old ∈ ws ∧
        (renameStep db ws m).2.2 = ws.erase old ++ [m.tableName] := by
  rcases renameStep_char db ws m with h | ⟨mig, old, _, hnm, hf, heq⟩
  · left; rw [h]
  · right
    refine ⟨old, hnm, ?_, by rw [heq]⟩
    have := List.find?_some hf
    exact of_decide_eq_true this

/-- Processing one model never grows the working set. -/
theorem processModel_ws_sub (d : SQLDialect) (db : DBState) (ws : List String)
    (m : Model) : (processModel d db ws m).ws ⊆ ws := by
  cases hv : m.isVirtual with
  | true => rw [processModel_virtual d db ws m hv]; exact fun x hx => hx
  | false =>
    rw [processModel_ws_eq d db ws m hv]
    rcases renameStep_ws_id_or db ws m with h | ⟨old, hnm, hold, h⟩
    · rw [h]
      by_cases h2 : m.tableName ∈ ws
      · rw [if_pos h2]; exact List.erase_subset _ _
      · rw [if_neg h2]; exact fun x hx => hx
    · rw [h]
      have hnm2 : m.tableName ∉ ws.erase old :=
        fun hc => hnm (List.erase_subset _ _ hc)
      have hmem : m.tableName ∈ ws.erase old ++ [m.tableName] := by simp
      rw [if_pos hmem, List.erase_append_right _ hnm2, List.erase_cons_head]
      intro x hx
      simp only [List.append_nil] at hx
      exact List.erase_subset _ _ hx

/-- Processing one model preserves distinctness of the working set. -/
theorem processModel_ws_nodup (d : SQLDialect) (db : DBState) (ws : List String)
    (m : Model) (hn : ws.Nodup) : (processModel d db ws m).ws.Nodup := by
  cases hv : m.isVirtual with
  | true => rw [processModel_virtual d db ws m hv]; exact hn
  | false =>
    rw [processModel_ws_eq d db ws m hv]
    rcases renameStep_ws_id_or db ws m with h | ⟨old, hnm, hold, h⟩
    · rw [h]
      by_cases h2 : m.tableName ∈ ws
      · rw [if_pos h2]; exact hn.erase _
      · rw [if_neg h2]; exact hn
    · rw [h]
      have hnm2 : m.tableName ∉ ws.erase old :=
        fun hc => hnm (List.erase_subset _ _ hc)
      have hmem : m.tableName ∈ ws.erase old ++ [m.tableName] := by simp
      rw [if_pos hmem, List.erase_append_right _ hnm2, List.erase_cons_head,
        List.append_nil]
      exact hn.erase _

/-- After processing a non-virtual model, its table name has left the
working set. -/
theorem processModel_ws_notmem (d : SQLDialect) (db : DBState) (ws : List String)
    (m : Model) (hn : ws.Nodup) (hv : m.isVirtual = false) :
    m.tableName ∉ (processModel d db ws m).ws := by
  rw [processModel_ws_eq d db ws m hv]
  rcases renameStep_ws_id_or db ws m with h | ⟨old, hnm, hold, h⟩
  · rw [h]
    by_cases h2 : m.tableName ∈ ws
    · rw [if_pos h2]; exact hn.not_mem_erase
    · rw [if_neg h2]; exact h2
  · rw [h]
    have hnm2 : m.tableName ∉ ws.erase old :=
      fun hc => hnm (List.erase_subset _ _ hc)
    have hmem : m.tableName ∈ ws.erase old ++ [m.tableName] := by simp
    rw [if_pos hmem, List.erase_append_right _ hnm2, List.erase_cons_head,
      List.append_nil]
    exact hnm2

/-- The rename-step trace holds no drops, no creates, and no renames to
any other table. -/
theorem renameStep_trace_counts (db : DBState) (ws : List String) (m : Model)
    (t' : String) :
    countEv (isDropTableFor t') (renameStep db ws m).1 = 0 ∧
      countEv (isCreateFor t') (renameStep db ws m).1 = 0 ∧
      (m.tableName ≠ t' → countEv (isRenameToFor t') (renameStep db ws m).1 = 0) := by
  rcases renameStep_char db ws m with h | ⟨mig, old, _, hnm, hf, h⟩
  · rw [h]
    exact ⟨rfl, rfl, fun _ => rfl⟩
  · rw [h]
    refine ⟨rfl, rfl, fun hne => ?_⟩
    simp [countEv, isRenameToFor, hne]

/-- No table still in the working set after a model step was dropped
during that step. -/
theorem processModel_dropcount (d : SQLDialect) (db : DBState) (ws : List String)
    (m : Model) (hn : ws.Nodup) :
    ∀ t' ∈ (processModel d db ws m).ws,
      countEv (isDropTableFor t') (processModel d db ws m).trace = 0 := by
  intro t' ht'
  cases hv : m.isVirtual with
  | true => rw [processModel_virtual d db ws m hv]; rfl
  | false =>
    have hne : m.tableName ≠ t' := fun hc =>
      (processModel_ws_notmem d db ws m hn hv) (hc ▸ ht')
    have hr := renameStep_trace_counts db ws m t'
    by_cases h2 : m.tableName ∈ (renameStep db ws m).2.2
    · cases h3 : (need_to_alter_any_columns (db_columns d (renameStep db ws m).2.1 m.tableName)
          (decode_model_columns m) && (d = .sqlite : Bool)) with
      | true =>
        rw [processModel_abort d db ws m hv h2 h3]
        exact hr.1
      | false =>
        cases h4 : (table_has_records (renameStep db ws m).2.1 m.tableName &&
            (manipulations (db_columns d (renameStep db ws m).2.1 m.tableName) m).any
              (·.is_add_column_non_null)) with
        | true =>
          rw [processModel_destructive d db ws m hv h2 h3 h4]
          simp only [countEv_append, hr.1]
          simp [countEv, isDropTableFor, hne]
        | false =>
          rw [processModel_exec d db ws m hv h2 h3 h4]
          simp only [countEv_append, hr.1,
            (exec_manipulations_table_counts d m.tableName t' _ _).1]
    · rw [processModel_create d db ws m hv h2]
      simp only [countEv_append, hr.1]
      simp [countEv, isCreateFor, isDropTableFor]

/-- A model step never drops, creates, renames to, or re-admits a table
that is outside the working set and differently named. -/
theorem processModel_avoid (d : SQLDialect) (db : DBState) (ws : List String)
    (m : Model) (t' : String) (hx : t' ∉ ws) (hname : m.tableName ≠ t') :
    countEv (isDropTableFor t') (processModel d db ws m).trace = 0 ∧
      countEv (isCreateFor t') (processModel d db ws m).trace = 0 ∧
      countEv (isRenameToFor t') (processModel d db ws m).trace = 0 ∧
      t' ∉ (processModel d db ws m).ws := by
  have hws : t' ∉ (processModel d db ws m).ws :=
    fun hc => hx (processModel_ws_sub d db ws m hc)
  have hr := renameStep_trace_counts db ws m t'
  cases hv : m.isVirtual with
  | true =>
    rw [processModel_virtual d db ws m hv] at hws ⊢
    exact ⟨rfl, rfl, rfl, hws⟩
  | false =>
    refine ⟨?_, ?_, ?_, hws⟩ <;>
    · by_cases h2 : m.tableName ∈ (renameStep db ws m).2.2
      · cases h3 : (need_to_alter_any_columns (db_columns d (renameStep db ws m).2.1 m.tableName)
            (decode_model_columns m) && (d = .sqlite : Bool)) with
        | true =>
          rw [processModel_abort d db ws m hv h2 h3]
          first
          | exact hr.1
          | exact hr.2.1
          | exact hr.2.2 hname
        | false =>
          cases h4 : (table_has_records (renameStep db ws m).2.1 m.tableName &&
              (manipulations (db_columns d (renameStep db ws m).2.1 m.tableName) m).any
                (·.is_add_column_non_null)) with
          | true =>
            rw [processModel_destructive d db ws m hv h2 h3 h4]
            simp only [countEv_append, hr.1, hr.2.1, hr.2.2 hname]
            simp [countEv, isDropTableFor, isCreateFor, isRenameToFor, hname]
          | false =>
            rw [processModel_exec d db ws m hv h2 h3 h4]
            have he := exec_manipulations_table_counts d m.tableName t'
              (manipulations (db_columns d (renameStep db ws m).2.1 m.tableName) m)
              (renameStep db ws m).2.1
            simp only [countEv_append, hr.1, hr.2.1, hr.2.2 hname, he.1, he.2.1, he.2.2]
      · rw [processModel_create d db ws m hv h2]
        simp only [countEv_append, hr.1, hr.2.1, hr.2.2 hname]
        simp [countEv, isDropTableFor, isCreateFor, isRenameToFor, hname]

/-- The model pass never grows the working set. -/
theorem runModels_ws_sub (d : SQLDialect) :
    ∀ (models : List Model) (db : DBState) (ws : List String),
      (runModels d db ws models).ws ⊆ ws := by
  intro models
  induction models with
  | nil => intro db ws x hx; exact hx
  | cons m rest ih =>
    intro db ws
    cases hab : (processModel d db ws m).abort with
    | some a =>
      rw [runModels]
      simp only [hab]
      exact processModel_ws_sub d db ws m
    | none =>
      rw [runModels]
      simp only [hab]
      intro x hx
      exact processModel_ws_sub d db ws m
        (ih (processModel d db ws m).db (processModel d db ws m).ws hx)

/-- The model pass preserves distinctness of the working set. -/
theorem runModels_ws_nodup (d : SQLDialect) :
    ∀ (models : List Model) (db : DBState) (ws : List String),
      ws.Nodup → (runModels d db ws models).ws.Nodup := by
  intro models
  induction models with
  | nil => intro db ws hn; exact hn
  | cons m rest ih =>
    intro db ws hn
    cases hab : (processModel d db ws m).abort with
    | some a =>
      rw [runModels]
      simp only [hab]
      exact processModel_ws_nodup d db ws m hn
    | none =>
      rw [runModels]
      simp only [hab]
      exact ih _ _ (processModel_ws_nodup d db ws m hn)

/-- After a completed model pass, no non-virtual declared table name
remains in the working set. -/
theorem runModels_notmem (d : SQLDialect) :
    ∀ (models : List Model) (db : DBState) (ws : List String),
      ws.Nodup →
      ∀ m2 ∈ models, m2.isVirtual = false →
        (runModels d db ws models).abort = none →
        m2.tableName ∉ (runModels d db ws models).ws := by
  intro models
  induction models with
  | nil => intro db ws _ m2 hm2; exact absurd hm2 (List.not_mem_nil m2)
  | cons m rest ih =>
    intro db ws hn m2 hm2 hv hok
    cases hab : (processModel d db ws m).abort with
    | some a =>
      rw [runModels] at hok
      simp only [hab] at hok
      exact absurd hok (by simp)
    | none =>
      rw [runModels] at hok ⊢
      simp only [hab] at hok ⊢
      rcases List.mem_cons.mp hm2 with heq | hmem
      · subst heq
        intro hc
        exact processModel_ws_notmem d db ws m2 hn hv
          (runModels_ws_sub d rest (processModel d db ws m2).db
            (processModel d db ws m2).ws hc)
      · exact ih _ _ (processModel_ws_nodup d db ws m hn) m2 hmem hv hok

/-- No table remaining in the working set was dropped during the model
pass. -/
theorem runModels_dropcount (d : SQLDialect) :
    ∀ (models : List Model) (db : DBState) (ws : List String),
      ws.Nodup →
      ∀ t' ∈ (runModels d db ws models).ws,
        countEv (isDropTableFor t') (runModels d db ws models).trace = 0 := by
  intro models
  induction models with
  | nil => intro db ws _ t' _; rfl
  | cons m rest ih =>
    intro db ws hn t' ht'
    cases hab : (processModel d db ws m).abort with
    | some a =>
      rw [runModels] at ht' ⊢
      simp only [hab] at ht' ⊢
      exact processModel_dropcount d db ws m hn t' ht'
    | none =>
      rw [runModels] at ht' ⊢
      simp only [hab] at ht' ⊢
      rw [countEv_append]
      have h2 := ih (processModel d db ws m).db (processModel d db ws m).ws
        (processModel_ws_nodup d db ws m hn) t' ht'
      have h1 := processModel_dropcount d db ws m hn t'
        (runModels_ws_sub d rest (processModel d db ws m).db
          (processModel d db ws m).ws ht')
      rw [h1, h2]

/-- The model pass never touches a table outside the working set whose
name no declared model bears. -/
theorem runModels_avoid (d : SQLDialect) :
    ∀ (models : List Model) (db : DBState) (ws : List String) (t' : String),
      t' ∉ ws → (∀ m ∈ models, m.tableName ≠ t') →
      countEv (isDropTableFor t') (runModels d db ws models).trace = 0 ∧
        countEv (isCreateFor t') (runModels d db ws models).trace = 0 ∧
        countEv (isRenameToFor t') (runModels d db ws models).trace = 0 ∧
        t' ∉ (runModels d db ws models).ws := by
  intro models
  induction models with
  | nil => intro db ws t' hx _; exact ⟨rfl, rfl, rfl, hx⟩
  | cons m rest ih =>
    intro db ws t' hx hnames
    have h1 := processModel_avoid d db ws m t' hx (hnames m (List.mem_cons_self m rest))
    cases hab : (processModel d db ws m).abort with
    | some a =>
      rw [runModels]
      simp only [hab]
      exact h1
    | none =>
      rw [runModels]
      simp only [hab]
      have h2 := ih (processModel d db ws m).db (processModel d db ws m).ws t'
        h1.2.2.2 (fun m2 hm2 => hnames m2 (List.mem_cons_of_mem m hm2))
      refine ⟨?_, ?_, ?_, h2.2.2.2⟩ <;>
        rw [countEv_append] <;> omega

/-- Drop-phase counting: the number of DROP TABLE statements for a table
equals its multiplicity in the remaining working set. -/
theorem countEv_dropMap (t : String) :
    ∀ l : List String,
      countEv (isDropTableFor t) (l.map (fun x => MEvent.exec (.dropTable x))) =
        l.count t := by
  intro l
  induction l with
  | nil => rfl
  | cons x rest ih =>
    simp only [List.map_cons, countEv, List.filter, List.count_cons, ih]
    by_cases hx : x = t
    · simp [isDropTableFor, countEv, List.count_cons, hx]
      exact ih
    · simp [isDropTableFor, countEv, List.count_cons, hx]
      exact ih

/-- Unfolding of a completed convergence run: the model-pass trace
followed by one DROP TABLE per remaining working-set entry. -/
theorem migrate_run_eq (d : SQLDialect) (db : DBState) (models : List Model)
    (h : (runModels d db (dbNames db) models).abort = none) :
    migrate d db models =
      ⟨(runModels d db (dbNames db) models).trace ++
          (runModels d db (dbNames db) models).ws.map
            (fun t => MEvent.exec (.dropTable t)),
        none,
        (runModels d db (dbNames db) models).ws.foldl
          (fun acc t => dbDropTable acc t) (runModels d db (dbNames db) models).db,
        (runModels d db (dbNames db) models).ws⟩ := by
  rw [migrate]
  simp only [h]

/-- A run that did not abort had an abort-free model pass. -/
theorem migrate_abort_none (d : SQLDialect) (db : DBState) (models : List Model)
    (hok : (migrate d db models).abort = none) :
    (runModels d db (dbNames db) models).abort = none := by
  cases habr : (runModels d db (dbNames db) models).abort with
  | none => rfl
  | some a =>
    rw [migrate] at hok
    simp only [habr] at hok
    exact hok

/-- C5: at the end of a completed convergence run over a duplicate-free
live table list, no non-virtual declared model table is in the drop set,
the drop set is duplicate-free and consists of live tables, and every
table in it receives exactly one DROP TABLE statement in the whole
trace. -/
theorem c5_drop_set_accounting (d : SQLDialect) (db : DBState)
    (models : List Model) (hn : (dbNames db).Nodup)
    (hok : (migrate d db models).abort = none) :
    (∀ m ∈ models, m.isVirtual = false → m.tableName ∉ (migrate d db models).ws) ∧
      (migrate d db models).ws.Nodup ∧
      (migrate d db models).ws ⊆ dbNames db ∧
      ∀ t ∈ (migrate d db models).ws,
        countEv (isDropTableFor t) (migrate d db models).trace = 1 := by
  have habr := migrate_abort_none d db models hok
  rw [migrate_run_eq d db models habr]
  refine ⟨?_, ?_, ?_, ?_⟩
  · intro m hm hv
    exact runModels_notmem d models db (dbNames db) hn m hm hv habr
  · exact runModels_ws_nodup d models db (dbNames db) hn
  · exact runModels_ws_sub d models db (dbNames db)
  · intro t ht
    rw [countEv_append, runModels_dropcount d models db (dbNames db) hn t ht,
      countEv_dropMap]
    rw [List.count_eq_one_of_mem (runModels_ws_nodup d models db (dbNames db) hn) ht]

/-- A mapped trace whose images never satisfy a classifier counts zero. -/
theorem countEv_map_zero (p : MEvent → Bool) (f : String → MEvent)
    (h : ∀ x, p (f x) = false) :
    ∀ l : List String, countEv p (l.map f) = 0 := by
  intro l
  induction l with
  | nil => rfl
  | cons x rest ih =>
    simp only [List.map_cons, countEv, List.filter_cons, h, if_false, Bool.false_eq_true]
    exact ih

/-- C6 (amended): on SQLite, whenever the diff of an existing table
requires an AlterColumn, processing that model aborts with the fatal
configuration error, and the only statements already executed for the
table are history-detected renames — no column-level, create or drop
DDL precedes the abort. -/
theorem c6_sqlite_abort_before_column_ddl (db : DBState) (ws : List String)
    (m : Model) (hv : m.isVirtual = false)
    (h2 : m.tableName ∈ (renameStep db ws m).2.2)
    (halter : need_to_alter_any_columns
        (db_columns .sqlite (renameStep db ws m).2.1 m.tableName)
        (decode_model_columns m) = true) :
    (processModel .sqlite db ws m).abort = some (.sqliteCannotAlter m.tableName) ∧
      (processModel .sqlite db ws m).trace = (renameStep db ws m).1 ∧
      ∀ e ∈ (processModel .sqlite db ws m).trace,
        ∃ o, e = MEvent.exec (.renameTable o m.tableName) := by
  have h3 : (need_to_alter_any_columns
      (db_columns .sqlite (renameStep db ws m).2.1 m.tableName)
      (decode_model_columns m) && (SQLDialect.sqlite = SQLDialect.sqlite : Bool)) = true := by
    rw [halter]; rfl
  rw [processModel_abort .sqlite db ws m hv h2 h3]
  refine ⟨rfl, rfl, ?_⟩
  intro e he
  rcases renameStep_char db ws m with h | ⟨mig, old, _, _, _, h⟩
  · rw [h] at he
    exact absurd he (List.not_mem_nil e)
  · rw [h] at he
    simp only [List.mem_singleton] at he
    exact ⟨old, he⟩

/-- C4 (amended): a non-virtual model whose table name is absent live
but whose rename history finds a live previous name receives exactly one
RENAME statement and zero CREATE TABLE and zero DROP TABLE statements in
the whole run, provided the renamed table does not trigger the
destructive drop-and-recreate branch (records present together with a
not-null AddColumn without default), and no later model declares the same
table name; the table never enters the drop set. -/
theorem c4_rename_exactly_once (d : SQLDialect) (db : DBState) (m : Model)
    (rest : List Model) (mig : MigrationRecord) (old : String)
    (hv : m.isVirtual = false)
    (hm : m.migration = some mig)
    (habs : m.tableName ∉ dbNames db)
    (hfind : mig.renamed.find? (fun o => decide (o ∈ dbNames db)) = some old)
    (hguard : (table_has_records (dbRenameTable db old m.tableName) m.tableName &&
        (manipulations
          (db_columns d (dbRenameTable db old m.tableName) m.tableName) m).any
          (·.is_add_column_non_null)) = false)
    (hrest : ∀ m2 ∈ rest, m2.tableName ≠ m.tableName) :
    countEv (isRenameToFor m.tableName) (migrate d db (m :: rest)).trace = 1 ∧
      countEv (isCreateFor m.tableName) (migrate d db (m :: rest)).trace = 0 ∧
      countEv (isDropTableFor m.tableName) (migrate d db (m :: rest)).trace = 0 ∧
      m.tableName ∉ (migrate d db (m :: rest)).ws := by
  have hrs : renameStep db (dbNames db) m =
      ([MEvent.exec (.renameTable old m.tableName)],
        dbRenameTable db old m.tableName,
        (dbNames db).erase old ++ [m.tableName]) := by
    simp [renameStep, hm, habs, hfind]
  have h2 : m.tableName ∈ (renameStep db (dbNames db) m).2.2 := by
    rw [hrs]; simp
  have hterase : ((dbNames db).erase old ++ [m.tableName]).erase m.tableName =
      (dbNames db).erase old := by
    rw [List.erase_append_right _
      (fun hc => habs (List.erase_subset _ _ hc)),
      List.erase_cons_head, List.append_nil]
  have htnotin1 : m.tableName ∉ (dbNames db).erase old :=
    fun hc => habs (List.erase_subset _ _ hc)
  -- counts of the first step trace
  have hrcount : countEv (isRenameToFor m.tableName)
        [MEvent.exec (.renameTable old m.tableName)] = 1 := by
    simp [countEv, isRenameToFor]
  have hccount : countEv (isCreateFor m.tableName)
        [MEvent.exec (.renameTable old m.tableName)] = 0 := by
    simp [countEv, isCreateFor]
  have hdcount : countEv (isDropTableFor m.tableName)
        [MEvent.exec (.renameTable old m.tableName)] = 0 := by
    simp [countEv, isDropTableFor]
  cases h3 : (need_to_alter_any_columns
      (db_columns d (renameStep db (dbNames db) m).2.1 m.tableName)
      (decode_model_columns m) && (d = .sqlite : Bool)) with
  | true =>
    have hp := processModel_abort d db (dbNames db) m hv h2 h3
    rw [hrs] at hp
    have hrm : runModels d db (dbNames db) (m :: rest) =
        ⟨[MEvent.exec (.renameTable old m.tableName)],
          some (.sqliteCannotAlter m.tableName),
          dbRenameTable db old m.tableName, (dbNames db).erase old⟩ := by
      rw [runModels, hp]
      simp [hterase]
    have hmig : migrate d db (m :: rest) =
        ⟨[MEvent.exec (.renameTable old m.tableName)],
          some (.sqliteCannotAlter m.tableName),
          dbRenameTable db old m.tableName, (dbNames db).erase old⟩ := by
      rw [migrate, hrm]
    rw [hmig]
    exact ⟨hrcount, hccount, hdcount, htnotin1⟩
  | false =>
    have h4 : (table_has_records (renameStep db (dbNames db) m).2.1 m.tableName &&
        (manipulations
          (db_columns d (renameStep db (dbNames db) m).2.1 m.tableName) m).any
          (·.is_add_column_non_null)) = false := by
      rw [hrs]; exact hguard
    have hp := processModel_exec d db (dbNames db) m hv h2 h3 h4
    rw [hrs] at hp
    set ms := manipulations
      (db_columns d (dbRenameTable db old m.tableName) m.tableName) m with hms
    have hexab : (exec_manipulations d (dbRenameTable db old m.tableName)
        m.tableName ms).2.1 = none := by
      apply exec_manipulations_no_abort
      cases hrec : table_has_records (dbRenameTable db old m.tableName) m.tableName with
      | false => exact Or.inl rfl
      | true =>
        right
        rw [hrec, Bool.true_and] at hguard
        exact fun mp hmp => Bool.eq_false_iff.mpr (List.any_eq_false.mp hguard mp hmp)
    have hexec := exec_manipulations_table_counts d m.tableName m.tableName ms
      (dbRenameTable db old m.tableName)
    -- the first model's full step
    have hrm : runModels d db (dbNames db) (m :: rest) =
        ⟨(processModel d db (dbNames db) m).trace ++
            (runModels d (processModel d db (dbNames db) m).db
              (processModel d db (dbNames db) m).ws rest).trace,
          (runModels d (processModel d db (dbNames db) m).db
            (processModel d db (dbNames db) m).ws rest).abort,
          (runModels d (processModel d db (dbNames db) m).db
            (processModel d db (dbNames db) m).ws rest).db,
          (runModels d (processModel d db (dbNames db) m).db
            (processModel d db (dbNames db) m).ws rest).ws⟩ := by
      rw [runModels]
      have habnone : (processModel d db (dbNames db) m).abort = none := by
        rw [hp]
        exact hexab
      simp only [habnone]
    have hwsstep : (processModel d db (dbNames db) m).ws = (dbNames db).erase old := by
      rw [hp]
      exact hterase
    have havoid := runModels_avoid d rest (processModel d db (dbNames db) m).db
      (processModel d db (dbNames db) m).ws m.tableName
      (by rw [hwsstep]; exact htnotin1) hrest
    have hstepcounts :
        countEv (isRenameToFor m.tableName) (processModel d db (dbNames db) m).trace = 1 ∧
        countEv (isCreateFor m.tableName) (processModel d db (dbNames db) m).trace = 0 ∧
        countEv (isDropTableFor m.tableName) (processModel d db (dbNames db) m).trace = 0 := by
      rw [hp]
      simp only [countEv_append]
      exact ⟨by rw [hrcount, hexec.2.2], by rw [hccount, hexec.2.1], by rw [hdcount, hexec.1]⟩
    cases habrest : (runModels d (processModel d db (dbNames db) m).db
        (processModel d db (dbNames db) m).ws rest).abort with
    | some a =>
      have hmig : migrate d db (m :: rest) = runModels d db (dbNames db) (m :: rest) := by
        rw [migrate, hrm]
        simp only [habrest]
      rw [hmig, hrm]
      simp only [countEv_append]
      refine ⟨by rw [hstepcounts.1, havoid.2.2.1], by rw [hstepcounts.2.1, havoid.2.1],
        by rw [hstepcounts.2.2, havoid.1], havoid.2.2.2⟩
    | none =>
      have habfull : (runModels d db (dbNames db) (m :: rest)).abort = none := by
        rw [hrm]
        exact habrest
      rw [migrate_run_eq d db (m :: rest) habfull]
      simp only [countEv_append]
      rw [hrm]
      simp only [countEv_append]
      have hdropmapR : countEv (isRenameToFor m.tableName)
          ((runModels d db (dbNames db) (m :: rest)).ws.map
            (fun t => MEvent.exec (.dropTable t))) = 0 :=
        countEv_map_zero _ _ (fun x => rfl) _
      have hdropmapC : countEv (isCreateFor m.tableName)
          ((runModels d db (dbNames db) (m :: rest)).ws.map
            (fun t => MEvent.exec (.dropTable t))) = 0 :=
        countEv_map_zero _ _ (fun x => rfl) _
      have hwsfull : (runModels d db (dbNames db) (m :: rest)).ws =
          (runModels d (processModel d db (dbNames db) m).db
            (processModel d db (dbNames db) m).ws rest).ws := by
        rw [hrm]
      have hdropmapD : countEv (isDropTableFor m.tableName)
          ((runModels d db (dbNames db) (m :: rest)).ws.map
            (fun t => MEvent.exec (.dropTable t))) = 0 := by
        rw [countEv_dropMap, hwsfull]
        exact List.count_eq_zero.mpr havoid.2.2.2
      rw [hwsfull] at hdropmapR hdropmapC hdropmapD
      refine ⟨?_, ?_, ?_, havoid.2.2.2⟩
      · rw [hstepcounts.1, havoid.2.2.1, hdropmapR]
      · rw [hstepcounts.2.1, havoid.2.1, hdropmapC]
      · rw [hstepcounts.2.2, havoid.1, hdropmapD]

/-- C5 witness scenario: a declared users model. -/
def c5Model : Model :=
  ⟨"users", false, none, [⟨⟨"id", "integer", true, false, none, true, false⟩, none, none⟩]⟩

/-- C5 witness scenario: a live database with one stale table. -/
def c5DB : DBState := [("zombie", ⟨[⟨"x", "text", false, false, none, false, false⟩], false⟩)]

/-- C5 witness: the accounting theorem applied at a concrete run. -/
theorem c5_drop_set_accounting_witness :
    (∀ m ∈ [c5Model], m.isVirtual = false →
        m.tableName ∉ (migrate .mysql c5DB [c5Model]).ws) ∧
      (migrate .mysql c5DB [c5Model]).ws.Nodup ∧
      (migrate .mysql c5DB [c5Model]).ws ⊆ dbNames c5DB ∧
      ∀ t ∈ (migrate .mysql c5DB [c5Model]).ws,
        countEv (isDropTableFor t) (migrate .mysql c5DB [c5Model]).trace = 1 :=
  c5_drop_set_accounting .mysql c5DB [c5Model] (by decide) (by decide)

/-- C4 witness scenario: a renamed model with a safe diff. -/
def c4wModel : Model := ⟨"cur", false, some ⟨["old"]⟩,
  [⟨⟨"status", "text", false, false, none, false, false⟩, none, none⟩]⟩

/-- C4 witness scenario: the live database holding only the old name. -/
def c4wDB : DBState :=
  [("old", ⟨[⟨"status", "text", false, false, none, false, false⟩], false⟩)]

/-- C4 witness: the rename theorem applied at a concrete run. -/
theorem c4_rename_exactly_once_witness :
    countEv (isRenameToFor c4wModel.tableName)
        (migrate .mysql c4wDB [c4wModel]).trace = 1 ∧
      countEv (isCreateFor c4wModel.tableName)
        (migrate .mysql c4wDB [c4wModel]).trace = 0 ∧
      countEv (isDropTableFor c4wModel.tableName)
        (migrate .mysql c4wDB [c4wModel]).trace = 0 ∧
      c4wModel.tableName ∉ (migrate .mysql c4wDB [c4wModel]).ws :=
  c4_rename_exactly_once .mysql c4wDB c4wModel [] ⟨["old"]⟩ "old"
    (by decide) (by decide) (by decide) (by decide) (by decide)
    (by intro m2 hm2; exact absurd hm2 (List.not_mem_nil m2))

/-- C6 witness: the abort theorem applied at a concrete state. -/
theorem c6_sqlite_abort_witness :
    (processModel .sqlite c6DB ["old"] c6Model).abort =
        some (.sqliteCannotAlter c6Model.tableName) ∧
      (processModel .sqlite c6DB ["old"] c6Model).trace =
        (renameStep c6DB ["old"] c6Model).1 ∧
      ∀ e ∈ (processModel .sqlite c6DB ["old"] c6Model).trace,
        ∃ o, e = MEvent.exec (.renameTable o c6Model.tableName) :=
  c6_sqlite_abort_before_column_ddl c6DB ["old"] c6Model (by decide) (by decide) (by decide)

/-- Unfolding of the name lookup on a cons cell. -/
theorem findByName_cons (c : SQLColumn) (rest : List SQLColumn) (n : String) :
    findByName (c :: rest) n = if c.name = n then some c else findByName rest n := by
  by_cases h : c.name = n
  · rw [if_pos h]
    exact List.find?_cons_of_pos rest (by simpa using h)
  · rw [if_neg h]
    exact List.find?_cons_of_neg rest (by simpa using h)

/-- Name lookup over an append searches left first. -/
theorem findByName_append (l1 l2 : List SQLColumn) (n : String) :
    findByName (l1 ++ l2) n =
      match findByName l1 n with
      | some c => some c
      | none => findByName l2 n := by
  induction l1 with
  | nil => rfl
  | cons c rest ih =>
    rw [List.cons_append, findByName_cons, findByName_cons]
    by_cases h : c.name = n
    · rw [if_pos h, if_pos h]
    · rw [if_neg h, if_neg h, ih]

/-- Replacing the column of one name rewrites exactly that lookup. -/
theorem findByName_map_replace (cols : List SQLColumn) (nm : String)
    (c' : SQLColumn) (hc : c'.name = nm) (n : String) :
    findByName (cols.map (fun c0 => if c0.name = nm then c' else c0)) n =
      if n = nm then (findByName cols n).map (fun _ => c') else findByName cols n := by
  induction cols with
  | nil =>
    by_cases h : n = nm <;> simp [findByName, h]
  | cons c0 rest ih =>
    rw [List.map_cons, findByName_cons, findByName_cons]
    by_cases h0 : c0.name = nm
    · rw [if_pos h0]
      by_cases h : n = nm
      · rw [if_pos h] at ih ⊢
        subst h
        rw [if_pos (hc.trans rfl), if_pos h0]
        simp [ih]
      · rw [if_neg h] at ih ⊢
        have hn1 : ¬(c'.name = n) := by rw [hc]; exact fun hh => h hh.symm
        have hn2 : ¬(c0.name = n) := by rw [h0]; exact fun hh => h hh.symm
        rw [if_neg hn1, if_neg hn2, ih]
    · rw [if_neg h0]
      by_cases h : n = nm
      · rw [if_pos h] at ih ⊢
        subst h
        have hn2 : ¬(c0.name = n) := h0
        rw [if_neg hn2, ih, if_neg hn2]
      · rw [if_neg h] at ih ⊢
        by_cases h3 : c0.name = n
        · rw [if_pos h3, if_pos h3]
        · rw [if_neg h3, if_neg h3, ih]

/-- Filtering one name out leaves other lookups unchanged. -/
theorem findByName_filter_ne (cols : List SQLColumn) (nm n : String) (h : n ≠ nm) :
    findByName (cols.filter (fun c0 => !(c0.name = nm : Bool))) n = findByName cols n := by
  induction cols with
  | nil => rfl
  | cons c0 rest ih =>
    rw [List.filter_cons, findByName_cons]
    by_cases h0 : c0.name = nm
    · have hn : ¬(nm = n) := fun hh => h hh.symm
      simp only [h0, decide_True, Bool.not_true]
      rw [if_neg (by simp), if_neg hn]
      exact ih
    · simp only [h0, decide_False, Bool.not_false]
      rw [if_pos (by simp)]
      rw [findByName_cons]
      by_cases h3 : c0.name = n
      · rw [if_pos h3, if_pos h3]
      · rw [if_neg h3, if_neg h3, ih]

/-- Filtering one name out makes that lookup fail. -/
theorem findByName_filter_self (cols : List SQLColumn) (nm : String) :
    findByName (cols.filter (fun c0 => !(c0.name = nm : Bool))) nm = none := by
  induction cols with
  | nil => rfl
  | cons c0 rest ih =>
    rw [List.filter_cons]
    by_cases h0 : c0.name = nm
    · simp only [h0, decide_True, Bool.not_true]
      rw [if_neg (by simp)]
      exact ih
    · simp only [h0, decide_False, Bool.not_false]
      rw [if_pos (by simp), findByName_cons, if_neg h0]
      exact ih

/-- A member column is always found under its own name. -/
theorem findByName_isSome_of_mem (cols : List SQLColumn) (c : SQLColumn)
    (h : c ∈ cols) : (findByName cols c.name).isSome = true := by
  induction cols with
  | nil => exact absurd h (List.not_mem_nil c)
  | cons c0 rest ih =>
    rw [findByName_cons]
    by_cases h0 : c0.name = c.name
    · rw [if_pos h0]; rfl
    · rw [if_neg h0]
      rcases List.mem_cons.mp h with heq | hmem
      · subst heq; exact absurd rfl h0
      · exact ih hmem

/-- A name occurring in the list is always found. -/
theorem findByName_isSome_of_name_mem (cols : List SQLColumn) (n : String)
    (h : n ∈ cols.map SQLColumn.name) : (findByName cols n).isSome = true := by
  rcases List.mem_map.mp h with ⟨c, hc, hn⟩
  rw [← hn]
  exact findByName_isSome_of_mem cols c hc

/-- A column with no default does not differ from its introspected image. -/
theorem colDiffers_zeroDef (c : SQLColumn) (h : c.default = none) :
    colDiffers (zeroDef c) c = false := by
  simp [colDiffers, zeroDef, h]

/-- Introspection keeps the column name. -/
theorem zeroDef_name (c : SQLColumn) : (zeroDef c).name = c.name := rfl

/-- The effect of one executed manipulation on the introspected column
list of the touched table (for the dialects using MODIFY, not the
PostgreSQL clause list). -/
def stepRead (cols : List SQLColumn) : ColumnManipulation → List SQLColumn
  | .addColumn c _ _ => cols ++ [zeroDef c]
  | .alterColumn _ new _ =>
    cols.map (fun c0 => if c0.name = new.name then zeroDef new else c0)
  | .removeColumn n _ => cols.filter (fun c0 => !(c0.name = n : Bool))
  | .renameColumn o n =>
    cols.map (fun c0 => if c0.name = o then { c0 with name := n } else c0)

/-- Replay a manipulation list on an introspected column list. -/
def applyMs (cols : List SQLColumn) : List ColumnManipulation → List SQLColumn
  | [] => cols
  | mp :: rest => applyMs (stepRead cols mp) rest

/-- Replay distributes over concatenation. -/
theorem applyMs_append (cols : List SQLColumn) (xs ys : List ColumnManipulation) :
    applyMs cols (xs ++ ys) = applyMs (applyMs cols xs) ys := by
  induction xs generalizing cols with
  | nil => rfl
  | cons mp rest ih => rw [List.cons_append, applyMs, applyMs, ih]

/-- Replay unfolding. -/
theorem applyMs_cons (cols : List SQLColumn) (mp : ColumnManipulation)
    (ms : List ColumnManipulation) :
    applyMs cols (mp :: ms) = applyMs (stepRead cols mp) ms := rfl

/-- The add/alter half of the diff, parameterised by the column list. -/
def diffAdds (dbCols : List SQLColumn) (specs : List AddSpec) : List ColumnManipulation :=
  specs.filterMap fun s =>
    match findByName dbCols s.column.name with
    | none => some (.addColumn s.column s.action s.dflt)
    | some dbc =>
      if colDiffers dbc s.column then some (.alterColumn dbc s.column s.action)
      else none

/-- The removal half of the diff. -/
def diffRemoves (dbCols modelCols : List SQLColumn) : List ColumnManipulation :=
  dbCols.filterMap fun dbc =>
    if (findByName modelCols dbc.name).isNone then
      some (.removeColumn dbc.name none)
    else none

/-- The manipulation list is the add/alter half followed by the removal
half. -/
theorem manipulations_eq (dbCols : List SQLColumn) (m : Model) :
    manipulations dbCols m =
      diffAdds dbCols m.specs ++ diffRemoves dbCols (decode_model_columns m) := rfl

/-- Characterization of replaying the add/alter half: every declared
column is afterwards found in non-differing form, other lookups are
untouched, and every element either bears a declared name or was already
present. -/
theorem part1_char (dbCols : List SQLColumn) :
    ∀ (specs : List AddSpec) (cols : List SQLColumn),
      ((specs.map (fun s => s.column.name)).Nodup) →
      (∀ s ∈ specs, s.column.default = none) →
      (∀ s ∈ specs, findByName cols s.column.name = findByName dbCols s.column.name) →
      (∀ s ∈ specs, ∃ c',
          findByName (applyMs cols (diffAdds dbCols specs)) s.column.name = some c' ∧
            colDiffers c' s.column = false) ∧
        (∀ n, n ∉ specs.map (fun s => s.column.name) →
          findByName (applyMs cols (diffAdds dbCols specs)) n = findByName cols n) ∧
        (∀ c1 ∈ applyMs cols (diffAdds dbCols specs),
          c1.name ∈ specs.map (fun s => s.column.name) ∨ c1 ∈ cols) := by
  intro specs
  induction specs with
  | nil =>
    intro cols _ _ _
    exact ⟨fun s hs => absurd hs (List.not_mem_nil s),
      fun n _ => rfl, fun c1 h => Or.inr h⟩
  | cons s rest ih =>
    intro cols hnd hdef hpres
    have hndrest : ((rest.map (fun s => s.column.name)).Nodup) :=
      (List.nodup_cons.mp hnd).2
    have hheadnot : s.column.name ∉ rest.map (fun s2 => s2.column.name) :=
      (List.nodup_cons.mp hnd).1
    have hdefrest : ∀ s2 ∈ rest, s2.column.default = none :=
      fun s2 h2 => hdef s2 (List.mem_cons_of_mem s h2)
    have hdefs : s.column.default = none := hdef s (List.mem_cons_self s rest)
    have hpress : findByName cols s.column.name = findByName dbCols s.column.name :=
      hpres s (List.mem_cons_self s rest)
    cases hfind : findByName dbCols s.column.name with
    | none =>
      -- AddColumn case
      have hda : diffAdds dbCols (s :: rest) =
          .addColumn s.column s.action s.dflt :: diffAdds dbCols rest := by
        simp [diffAdds, List.filterMap_cons, hfind]
      rw [hda, applyMs_cons,
        show stepRead cols (.addColumn s.column s.action s.dflt) =
          cols ++ [zeroDef s.column] from rfl]
      have hpres2 : ∀ s2 ∈ rest,
          findByName (cols ++ [zeroDef s.column]) s2.column.name =
            findByName dbCols s2.column.name := by
        intro s2 h2
        rw [findByName_append]
        have hne : ¬(s2.column.name = s.column.name) := by
          intro hh
          exact hheadnot (hh ▸ List.mem_map_of_mem (fun s3 => s3.column.name) h2)
        cases hcc : findByName cols s2.column.name with
        | some c => rw [← hpres s2 (List.mem_cons_of_mem s h2), hcc]
        | none =>
          rw [← hpres s2 (List.mem_cons_of_mem s h2), hcc]
          show findByName [zeroDef s.column] s2.column.name = none
          rw [findByName_cons]
          rw [if_neg (by rw [zeroDef_name]; exact fun hh => hne hh.symm)]
          rfl
      obtain ⟨ih1, ih2, ih3⟩ := ih (cols ++ [zeroDef s.column]) hndrest hdefrest hpres2
      refine ⟨?_, ?_, ?_⟩
      · intro s2 h2
        rcases List.mem_cons.mp h2 with heq | hmem
        · rw [heq]
          refine ⟨zeroDef s.column, ?_, colDiffers_zeroDef s.column hdefs⟩
          rw [ih2 s.column.name hheadnot, findByName_append, hpress, hfind]
          show findByName [zeroDef s.column] s.column.name = some (zeroDef s.column)
          rw [findByName_cons, if_pos (zeroDef_name s.column)]
        · exact ih1 s2 hmem
      · intro n hn
        have hn1 : n ∉ rest.map (fun s2 => s2.column.name) :=
          fun hc => hn (List.mem_cons_of_mem _ hc)
        have hn2 : ¬(s.column.name = n) :=
          fun hc => hn (hc ▸ List.mem_cons_self _ _)
        rw [ih2 n hn1, findByName_append]
        cases hcc : findByName cols n with
        | some c => rfl
        | none =>
          show findByName [zeroDef s.column] n = none
          rw [findByName_cons, if_neg (by rw [zeroDef_name]; exact hn2)]
          rfl
      · intro c1 h1
        rcases ih3 c1 h1 with hname | hmem
        · exact Or.inl (List.mem_cons_of_mem _ hname)
        · rcases List.mem_append.mp hmem with hl | hr
          · exact Or.inr hl
          · rcases List.mem_singleton.mp hr with heq
            left
            rw [heq, zeroDef_name]
            exact List.mem_cons_self _ _
    | some dbc =>
      cases hdif : colDiffers dbc s.column with
      | true =>
        -- AlterColumn case
        have hda : diffAdds dbCols (s :: rest) =
            .alterColumn dbc s.column s.action :: diffAdds dbCols rest := by
          simp [diffAdds, List.filterMap_cons, hfind, hdif]
        rw [hda, applyMs_cons,
          show stepRead cols (.alterColumn dbc s.column s.action) =
            cols.map (fun c0 => if c0.name = s.column.name then zeroDef s.column else c0)
            from rfl]
        have hrepl := findByName_map_replace cols s.column.name (zeroDef s.column)
          (zeroDef_name s.column)
        have hpres2 : ∀ s2 ∈ rest,
            findByName (cols.map (fun c0 =>
                if c0.name = s.column.name then zeroDef s.column else c0)) s2.column.name =
              findByName dbCols s2.column.name := by
          intro s2 h2
          have hne : ¬(s2.column.name = s.column.name) := by
            intro hh
            exact hheadnot (hh ▸ List.mem_map_of_mem (fun s3 => s3.column.name) h2)
          rw [hrepl s2.column.name, if_neg hne]
          exact hpres s2 (List.mem_cons_of_mem s h2)
        obtain ⟨ih1, ih2, ih3⟩ := ih _ hndrest hdefrest hpres2
        refine ⟨?_, ?_, ?_⟩
        · intro s2 h2
          rcases List.mem_cons.mp h2 with heq | hmem
          · rw [heq]
            refine ⟨zeroDef s.column, ?_, colDiffers_zeroDef s.column hdefs⟩
            rw [ih2 s.column.name hheadnot, hrepl s.column.name, if_pos rfl,
              hpress, hfind]
            rfl
          · exact ih1 s2 hmem
        · intro n hn
          have hn1 : n ∉ rest.map (fun s2 => s2.column.name) :=
            fun hc => hn (List.mem_cons_of_mem _ hc)
          have hn2 : ¬(n = s.column.name) :=
            fun hc => hn (hc ▸ List.mem_cons_self _ _)
          rw [ih2 n hn1, hrepl n, if_neg hn2]
        · intro c1 h1
          rcases ih3 c1 h1 with hname | hmem
          · exact Or.inl (List.mem_cons_of_mem _ hname)
          · rcases List.mem_map.mp hmem with ⟨c0, hc0, heq⟩
            by_cases h0 : c0.name = s.column.name
            · rw [if_pos h0] at heq
              left
              rw [← heq, zeroDef_name]
              exact List.mem_cons_self _ _
            · rw [if_neg h0] at heq
              exact Or.inr (heq ▸ hc0)
      | false =>
        -- no manipulation for this column
        have hda : diffAdds dbCols (s :: rest) = diffAdds dbCols rest := by
          simp [diffAdds, List.filterMap_cons, hfind, hdif]
        rw [hda]
        have hpres2 : ∀ s2 ∈ rest,
            findByName cols s2.column.name = findByName dbCols s2.column.name :=
          fun s2 h2 => hpres s2 (List.mem_cons_of_mem s h2)
        obtain ⟨ih1, ih2, ih3⟩ := ih cols hndrest hdefrest hpres2
        refine ⟨?_, ?_, ?_⟩
        · intro s2 h2
          rcases List.mem_cons.mp h2 with heq | hmem
          · rw [heq]
            refine ⟨dbc, ?_, hdif⟩
            rw [ih2 s.column.name hheadnot, hpress, hfind]
          · exact ih1 s2 hmem
        · intro n hn
          exact ih2 n (fun hc => hn (List.mem_cons_of_mem _ hc))
        · intro c1 h1
          rcases ih3 c1 h1 with hname | hmem
          · exact Or.inl (List.mem_cons_of_mem _ hname)
          · exact Or.inr hmem

/-- Characterization of replaying the removal half: lookups of names the
model declares are untouched, no new elements appear, and no element
keeps a name whose live column had no model counterpart. -/
theorem part2_char (modelCols : List SQLColumn) :
    ∀ (dl : List SQLColumn) (cols : List SQLColumn),
      (∀ n, (findByName modelCols n).isSome = true →
        findByName (applyMs cols (diffRemoves dl modelCols)) n = findByName cols n) ∧
      (∀ c1 ∈ applyMs cols (diffRemoves dl modelCols), c1 ∈ cols) ∧
      (∀ dbc ∈ dl, (findByName modelCols dbc.name).isNone = true →
        ∀ c1 ∈ applyMs cols (diffRemoves dl modelCols), c1.name ≠ dbc.name) := by
  intro dl
  induction dl with
  | nil =>
    intro cols
    exact ⟨fun n _ => rfl, fun c1 h => h, fun dbc h => absurd h (List.not_mem_nil dbc)⟩
  | cons dbc0 rest ih =>
    intro cols
    cases hmf : (findByName modelCols dbc0.name).isNone with
    | true =>
      have hmf2 : findByName modelCols dbc0.name = none :=
        Option.isNone_iff_eq_none.mp hmf
      have hdr : diffRemoves (dbc0 :: rest) modelCols =
          .removeColumn dbc0.name none :: diffRemoves rest modelCols := by
        simp [diffRemoves, List.filterMap_cons, hmf2]
      rw [hdr, applyMs_cons,
        show stepRead cols (.removeColumn dbc0.name none) =
          cols.filter (fun c0 => !(c0.name = dbc0.name : Bool)) from rfl]
      obtain ⟨ih1, ih2, ih3⟩ := ih (cols.filter (fun c0 => !(c0.name = dbc0.name : Bool)))
      refine ⟨?_, ?_, ?_⟩
      · intro n hs
        have hne : n ≠ dbc0.name := by
          intro hh
          rw [hh] at hs
          rw [Option.isNone_iff_eq_none] at hmf
          rw [hmf] at hs
          exact absurd hs (by simp)
        rw [ih1 n hs, findByName_filter_ne cols dbc0.name n hne]
      · intro c1 h1
        exact List.mem_of_mem_filter (ih2 c1 h1)
      · intro dbc hdbc hnone c1 h1
        rcases List.mem_cons.mp hdbc with heq | hmem
        · rw [heq]
          have h2 := ih2 c1 h1
          have h3 := List.of_mem_filter h2
          simpa using h3
        · exact ih3 dbc hmem hnone c1 h1
    | false =>
      have hmf2 : ¬(findByName modelCols dbc0.name = none) := by
        intro hh
        rw [hh] at hmf
        exact absurd hmf (by simp)
      have hdr : diffRemoves (dbc0 :: rest) modelCols = diffRemoves rest modelCols := by
        simp [diffRemoves, List.filterMap_cons, hmf2]
      rw [hdr]
      obtain ⟨ih1, ih2, ih3⟩ := ih cols
      refine ⟨ih1, ih2, ?_⟩
      intro dbc hdbc hnone c1 h1
      rcases List.mem_cons.mp hdbc with heq | hmem
      · rw [heq] at hnone
        rw [hnone] at hmf
        exact absurd hmf (by simp)
      · exact ih3 dbc hmem hnone c1 h1

/-- Replaying the diff of a table converges it: the diff of the replayed
column list against the same model is empty. -/
theorem converged_applyMs (m : Model) (dbCols : List SQLColumn)
    (hnd : ((m.specs.map (fun s => s.column.name)).Nodup))
    (hdef : ∀ s ∈ m.specs, s.column.default = none) :
    manipulations (applyMs dbCols (manipulations dbCols m)) m = [] := by
  rw [manipulations_eq dbCols m, applyMs_append]
  set p1res := applyMs dbCols (diffAdds dbCols m.specs) with hp1
  set fin := applyMs p1res (diffRemoves dbCols (decode_model_columns m)) with hfin
  obtain ⟨b1i, b1ii, b1iii⟩ := part1_char dbCols m.specs dbCols hnd hdef (fun s _ => rfl)
  obtain ⟨b2a, b2b, b2c⟩ := part2_char (decode_model_columns m) dbCols p1res
  rw [manipulations_eq fin m]
  have hpart1 : diffAdds fin m.specs = [] := by
    unfold diffAdds
    rw [List.filterMap_eq_nil_iff]
    intro s hs
    have hsome : (findByName (decode_model_columns m) s.column.name).isSome = true := by
      apply findByName_isSome_of_name_mem
      rw [decode_model_columns, List.map_map]
      exact List.mem_map_of_mem (fun s2 => s2.column.name) hs
    obtain ⟨c', hc', hdif⟩ := b1i s hs
    rw [b2a s.column.name hsome, hc']
    show (if colDiffers c' s.column = true then
        some (ColumnManipulation.alterColumn c' s.column s.action) else none) = none
    rw [hdif]
    simp
  have hpart2 : diffRemoves fin (decode_model_columns m) = [] := by
    unfold diffRemoves
    rw [List.filterMap_eq_nil_iff]
    intro c1 h1
    cases hmn : (findByName (decode_model_columns m) c1.name).isNone with
    | false => simp [hmn]
    | true =>
      exfalso
      have hc1p1 : c1 ∈ p1res := b2b c1 h1
      rcases b1iii c1 hc1p1 with hname | hmem
      · have : (findByName (decode_model_columns m) c1.name).isSome = true := by
          apply findByName_isSome_of_name_mem
          rw [decode_model_columns, List.map_map]
          exact hname
        rw [Option.isNone_iff_eq_none] at hmn
        rw [hmn] at this
        exact absurd this (by simp)
      · exact b2c c1 hmem hmn c1 h1 rfl
  rw [hpart1, hpart2]
  rfl

/-- Table lookup on a cons cell. -/
theorem dbLookup_cons (e : String × TableState) (rest : DBState) (t : String) :
    dbLookup (e :: rest) t = if e.1 = t then some e.2 else dbLookup rest t := by
  by_cases h : e.1 = t
  · rw [if_pos h]
    unfold dbLookup
    rw [List.find?_cons_of_pos _ (by simpa using h)]
    rfl
  · rw [if_neg h]
    unfold dbLookup
    rw [List.find?_cons_of_neg _ (by simpa using h)]

/-- A table is found exactly when its name is live. -/
theorem dbLookup_isSome_iff (db : DBState) (t : String) :
    (dbLookup db t).isSome = true ↔ t ∈ dbNames db := by
  induction db with
  | nil => simp [dbLookup, dbNames]
  | cons e rest ih =>
    rw [dbLookup_cons]
    by_cases h : e.1 = t
    · simp [h, dbNames]
    · simp only [if_neg h, dbNames, List.map_cons, List.mem_cons]
      rw [ih]
      constructor
      · intro hm; exact Or.inr hm
      · intro hm
        rcases hm with heq | hm
        · exact absurd heq.symm h
        · exact hm

/-- Per-table updates touch no table names. -/
theorem dbNames_dbUpdateTable (db : DBState) (t : String) (f : TableState → TableState) :
    dbNames (dbUpdateTable db t f) = dbNames db := by
  induction db with
  | nil => rfl
  | cons e rest ih =>
    by_cases h : e.1 = t <;> simp [dbUpdateTable, dbNames, h] at ih ⊢ <;> exact ih

/-- Per-table update at the touched name. -/
theorem dbLookup_dbUpdateTable_self (db : DBState) (t : String) (f : TableState → TableState) :
    dbLookup (dbUpdateTable db t f) t = (dbLookup db t).map f := by
  induction db with
  | nil => rfl
  | cons e rest ih =>
    by_cases h : e.1 = t
    · simp only [dbUpdateTable, List.map_cons, if_pos h]
      rw [dbLookup_cons, dbLookup_cons, if_pos h, if_pos h]
      rfl
    · simp only [dbUpdateTable, List.map_cons, if_neg h]
      rw [dbLookup_cons, dbLookup_cons, if_neg h, if_neg h]
      exact ih

/-- Per-table update leaves other tables alone. -/
theorem dbLookup_dbUpdateTable_ne (db : DBState) (t n : String)
    (f : TableState → TableState) (h : n ≠ t) :
    dbLookup (dbUpdateTable db t f) n = dbLookup db n := by
  induction db with
  | nil => rfl
  | cons e rest ih =>
    by_cases he : e.1 = t
    · simp only [dbUpdateTable, List.map_cons, if_pos he]
      rw [dbLookup_cons, dbLookup_cons]
      have : ¬(e.1 = n) := by rw [he]; exact fun hh => h hh.symm
      rw [if_neg this, if_neg this]
      exact ih
    · simp only [dbUpdateTable, List.map_cons, if_neg he]
      rw [dbLookup_cons, dbLookup_cons]
      by_cases he2 : e.1 = n
      · rw [if_pos he2, if_pos he2]
      · rw [if_neg he2, if_neg he2]
        exact ih

/-- RENAME maps the table-name list pointwise. -/
theorem dbNames_dbRenameTable (db : DBState) (old new : String) :
    dbNames (dbRenameTable db old new) =
      (dbNames db).map (fun x => if x = old then new else x) := by
  induction db with
  | nil => rfl
  | cons e rest ih =>
    by_cases h : e.1 = old <;>
      simp only [dbRenameTable, dbNames, List.map_cons, if_pos, if_neg, h] at ih ⊢ <;>
      simp [h, ih]

/-- RENAME leaves unrelated tables alone. -/
theorem dbLookup_dbRenameTable_ne (db : DBState) (old new n : String)
    (h1 : n ≠ old) (h2 : n ≠ new) :
    dbLookup (dbRenameTable db old new) n = dbLookup db n := by
  induction db with
  | nil => rfl
  | cons e rest ih =>
    by_cases he : e.1 = old
    · simp only [dbRenameTable, List.map_cons, if_pos he]
      rw [dbLookup_cons, dbLookup_cons]
      have hx1 : ¬(new = n) := fun hh => h2 hh.symm
      have hx2 : ¬(e.1 = n) := by rw [he]; exact fun hh => h1 hh.symm
      rw [if_neg hx1, if_neg hx2]
      exact ih
    · simp only [dbRenameTable, List.map_cons, if_neg he]
      rw [dbLookup_cons, dbLookup_cons]
      by_cases he2 : e.1 = n
      · rw [if_pos he2, if_pos he2]
      · rw [if_neg he2, if_neg he2]
        exact ih

/-- After a rename to a fresh name, the new name resolves to the old
table. -/
theorem dbLookup_dbRenameTable_target (db : DBState) (old new : String)
    (ht : new ∉ dbNames db) :
    dbLookup (dbRenameTable db old new) new = dbLookup db old := by
  induction db with
  | nil => rfl
  | cons e rest ih =>
    have htr : new ∉ dbNames rest := fun hc => ht (by simp [dbNames] at hc ⊢; exact Or.inr hc)
    have hte : ¬(e.1 = new) := by
      intro hh
      exact ht (by simp [dbNames]; exact Or.inl hh.symm)
    by_cases he : e.1 = old
    · simp only [dbRenameTable, List.map_cons, if_pos he]
      rw [dbLookup_cons, dbLookup_cons, if_pos rfl, if_pos he]
    · simp only [dbRenameTable, List.map_cons, if_neg he]
      rw [dbLookup_cons, dbLookup_cons, if_neg hte, if_neg he]
      exact ih htr

/-- DROP TABLE leaves other tables alone. -/
theorem dbLookup_dbDropTable_ne (db : DBState) (t n : String) (h : n ≠ t) :
    dbLookup (dbDropTable db t) n = dbLookup db n := by
  induction db with
  | nil => rfl
  | cons e rest ih =>
    by_cases he : e.1 = t
    · have : ¬(e.1 = n) := by rw [he]; exact fun hh => h hh.symm
      simp only [dbDropTable, List.filter_cons, he, decide_True, Bool.not_true]
      rw [if_neg (by simp), dbLookup_cons, if_neg this]
      exact ih
    · simp only [dbDropTable, List.filter_cons, he, decide_False, Bool.not_false]
      rw [if_pos (by simp), dbLookup_cons, dbLookup_cons]
      by_cases he2 : e.1 = n
      · rw [if_pos he2, if_pos he2]
      · rw [if_neg he2, if_neg he2]
        exact ih

/-- DROP TABLE filters the name out. -/
theorem dbNames_dbDropTable (db : DBState) (t : String) :
    dbNames (dbDropTable db t) = (dbNames db).filter (fun x => !(x = t : Bool)) := by
  induction db with
  | nil => rfl
  | cons e rest ih =>
    by_cases he : e.1 = t <;>
      simp [dbDropTable, dbNames, List.filter_cons, he] at ih ⊢ <;> exact ih

/-- Table lookup over an append searches left first. -/
theorem dbLookup_append (l1 l2 : DBState) (n : String) :
    dbLookup (l1 ++ l2) n =
      match dbLookup l1 n with
      | some ts => some ts
      | none => dbLookup l2 n := by
  induction l1 with
  | nil => rfl
  | cons e rest ih =>
    rw [List.cons_append, dbLookup_cons, dbLookup_cons]
    by_cases he : e.1 = n
    · rw [if_pos he, if_pos he]
    · rw [if_neg he, if_neg he, ih]

/-- A dropped table is gone. -/
theorem dbLookup_dbDropTable_self (db : DBState) (t : String) :
    dbLookup (dbDropTable db t) t = none := by
  induction db with
  | nil => rfl
  | cons e rest ih =>
    by_cases he : e.1 = t
    · simp only [dbDropTable, List.filter_cons, he, decide_True, Bool.not_true]
      rw [if_neg (by simp)]
      exact ih
    · simp only [dbDropTable, List.filter_cons, he, decide_False, Bool.not_false]
      rw [if_pos (by simp), dbLookup_cons, if_neg he]
      exact ih

/-- A created table holds the declared columns and no rows. -/
theorem dbLookup_dbCreateTable_self (db : DBState) (m : Model) :
    dbLookup (dbCreateTable db m) m.tableName =
      some ⟨decode_model_columns m, false⟩ := by
  unfold dbCreateTable
  rw [dbLookup_append, dbLookup_dbDropTable_self]
  rw [dbLookup_cons, if_pos rfl]

/-- CREATE TABLE leaves other tables alone. -/
theorem dbLookup_dbCreateTable_ne (db : DBState) (m : Model) (n : String)
    (h : n ≠ m.tableName) :
    dbLookup (dbCreateTable db m) n = dbLookup db n := by
  unfold dbCreateTable
  rw [dbLookup_append, dbLookup_dbDropTable_ne db m.tableName n h]
  cases hc : dbLookup db n with
  | some ts => rfl
  | none =>
    rw [dbLookup_cons, if_neg (fun hh => h hh.symm)]
    rfl

/-- CREATE TABLE appends the name after displacing the old entry. -/
theorem dbNames_dbCreateTable (db : DBState) (m : Model) :
    dbNames (dbCreateTable db m) =
      (dbNames db).filter (fun x => !(x = m.tableName : Bool)) ++ [m.tableName] := by
  unfold dbCreateTable
  rw [show dbNames (dbDropTable db m.tableName ++
      [(m.tableName, (⟨decode_model_columns m, false⟩ : TableState))]) =
    dbNames (dbDropTable db m.tableName) ++ [m.tableName] from by
      simp [dbNames]]
  rw [dbNames_dbDropTable]

/-- Introspection commutes with a by-name column replacement. -/
theorem map_zero_replace (cols : List SQLColumn) (newC : SQLColumn) :
    (cols.map (fun c0 => if c0.name = newC.name then newC else c0)).map zeroDef =
      (cols.map zeroDef).map
        (fun c0 => if c0.name = newC.name then zeroDef newC else c0) := by
  induction cols with
  | nil => rfl
  | cons c0 rest ih =>
    rw [List.map_cons, List.map_cons, List.map_cons, List.map_cons]
    congr 1
    by_cases h : c0.name = newC.name
    · rw [if_pos h, if_pos (show (zeroDef c0).name = newC.name from h)]
    · rw [if_neg h, if_neg (show ¬((zeroDef c0).name = newC.name) from h)]

/-- Introspection commutes with a by-name column removal. -/
theorem map_zero_filter (cols : List SQLColumn) (n : String) :
    (cols.filter (fun c0 => !(c0.name = n : Bool))).map zeroDef =
      (cols.map zeroDef).filter (fun c0 => !(c0.name = n : Bool)) := by
  induction cols with
  | nil => rfl
  | cons c0 rest ih =>
    by_cases h : c0.name = n <;>
      simp [List.filter_cons, h, show (zeroDef c0).name = c0.name from rfl, ih]

/-- Introspection commutes with a column rename. -/
theorem map_zero_rename (cols : List SQLColumn) (o n : String) :
    (cols.map (fun c0 => if c0.name = o then { c0 with name := n } else c0)).map zeroDef =
      (cols.map zeroDef).map
        (fun c0 => if c0.name = o then { c0 with name := n } else c0) := by
  induction cols with
  | nil => rfl
  | cons c0 rest ih =>
    rw [List.map_cons, List.map_cons, List.map_cons, List.map_cons]
    congr 1
    by_cases h : c0.name = o
    · rw [if_pos h, if_pos (show (zeroDef c0).name = o from h)]
      rfl
    · rw [if_neg h, if_neg (show ¬((zeroDef c0).name = o) from h)]

/-- The rendered default is erased by introspection. -/
theorem zeroDef_rendered (c : SQLColumn) (s : String) :
    zeroDef { c with default := some s } = zeroDef c := rfl

/-- Reading the columns of a found table off SQLite: the decoder erases
the stored defaults. -/
theorem db_columns_eq_some (d : SQLDialect) (hs : d ≠ .sqlite) (db : DBState)
    (t : String) (ts : TableState)
    (h : dbLookup db t = some ts) : db_columns d db t = ts.cols.map zeroDef := by
  unfold db_columns
  rw [h]
  exact if_neg hs

/-- Reading the columns of a found table on SQLite: the stored columns
come back unchanged, defaults included. -/
theorem db_columns_sqlite_eq (db : DBState) (t : String) (ts : TableState)
    (h : dbLookup db t = some ts) : db_columns .sqlite db t = ts.cols := by
  unfold db_columns
  rw [h]
  exact if_pos rfl

/-- A column carrying no default is unchanged by the decoder erasure. -/
theorem zeroDef_eq_self (c : SQLColumn) (h : c.default = none) : zeroDef c = c := by
  cases c
  simp_all [zeroDef]

/-- A column list free of defaults is unchanged by the decoder erasure. -/
theorem map_zeroDef_id (cols : List SQLColumn) (h : ∀ c ∈ cols, c.default = none) :
    cols.map zeroDef = cols := by
  induction cols with
  | nil => rfl
  | cons c rest ih =>
    rw [List.map_cons, zeroDef_eq_self c (h c (List.mem_cons_self _ _)),
      ih (fun c2 h2 => h c2 (List.mem_cons_of_mem _ h2))]

/-- One manipulation cannot abort when the table has no records or the
manipulation is not a not-null add without default. -/
theorem exec_manipulation_no_abort_single (d : SQLDialect) (db : DBState)
    (t : String) (mp : ColumnManipulation)
    (h : table_has_records db t = false ∨ mp.is_add_column_non_null = false) :
    (exec_manipulation d db t mp).2.1 = none := by
  cases mp with
  | addColumn c act dflt =>
    simp only [exec_manipulation]
    split
    · rename_i hcond
      rw [Bool.and_eq_true] at hcond
      rcases h with h | h
      · rw [h] at hcond
        exact absurd hcond.2 (by simp)
      · rw [ColumnManipulation.is_add_column_non_null] at h
        rw [h] at hcond
        exact absurd hcond.1 (by simp)
    · rfl
  | alterColumn oldC newC act =>
    by_cases hp : d = .postgresql <;> simp [exec_manipulation, hp]
  | removeColumn n act => cases act <;> rfl
  | renameColumn o n => rfl

/-- Every column this manipulation writes into the table carries no
stored default: the condition under which the default-preserving SQLite
introspection reads back exactly what the replay predicts. -/
def ColumnManipulation.writes_no_default : ColumnManipulation → Prop
  | .addColumn c _ dflt => c.default = none ∧ dflt = none
  | .alterColumn _ newC _ => newC.default = none
  | .removeColumn _ _ => True
  | .renameColumn _ _ => True

/-- Every manipulation the diff produces writes only default-free
columns, when the declared columns carry no default literal and no
declared default value is attached to any spec. -/
theorem manips_writes_no_default (dbCols : List SQLColumn) (m : Model)
    (hdef : ∀ s ∈ m.specs, s.column.default = none)
    (hq : ∀ s ∈ m.specs, s.dflt = none) :
    ∀ mp ∈ manipulations dbCols m, mp.writes_no_default := by
  intro mp hmp
  rw [manipulations_eq] at hmp
  rcases List.mem_append.mp hmp with h | h
  · obtain ⟨s, hs, hmk⟩ := List.mem_filterMap.mp h
    cases hf : findByName dbCols s.column.name with
    | none =>
      rw [hf] at hmk
      simp only [Option.some.injEq] at hmk
      rw [← hmk]
      exact ⟨hdef s hs, hq s hs⟩
    | some dbc =>
      simp only [hf] at hmk
      by_cases hdif : colDiffers dbc s.column = true
      · rw [if_pos hdif] at hmk
        simp only [Option.some.injEq] at hmk
        rw [← hmk]
        exact hdef s hs
      · rw [if_neg hdif] at hmk
        exact absurd hmk (by simp)
  · obtain ⟨dbc, hdbc, hmk⟩ := List.mem_filterMap.mp h
    by_cases hfn : (findByName (decode_model_columns m) dbc.name).isNone = true
    · rw [if_pos hfn] at hmk
      simp only [Option.some.injEq] at hmk
      rw [← hmk]
      trivial
    · rw [if_neg hfn] at hmk
      exact absurd hmk (by simp)

/-- Off PostgreSQL, executing one manipulation transforms the
introspected column list exactly as the pure replay does; on SQLite this
additionally requires that the manipulation writes no default, since the
SQLite introspection preserves stored defaults. -/
theorem exec_step_read (d : SQLDialect) (hd : d ≠ .postgresql) (db : DBState)
    (t : String) (mp : ColumnManipulation)
    (ht : t ∈ dbNames db)
    (hna : (exec_manipulation d db t mp).2.1 = none)
    (hq : d = .sqlite → mp.writes_no_default) :
    db_columns d (exec_manipulation d db t mp).2.2 t = stepRead (db_columns d db t) mp := by
  obtain ⟨ts, hts⟩ : ∃ ts, dbLookup db t = some ts := by
    have h2 := (dbLookup_isSome_iff db t).mpr ht
    cases hc : dbLookup db t with
    | some ts => exact ⟨ts, rfl⟩
    | none => rw [hc] at h2; exact absurd h2 (by simp)
  cases mp with
  | addColumn c act dflt =>
    have hnoabort : ¬((c.not_null && dflt.isNone && table_has_records db t) = true) := by
      intro hcond
      simp only [exec_manipulation] at hna
      rw [if_pos hcond] at hna
      exact absurd hna (by simp)
    by_cases hsq : d = .sqlite
    · obtain ⟨hcd, hdn⟩ := hq hsq
      subst hdn
      have heq : (exec_manipulation d db t (.addColumn c act none)).2.2 =
          dbAddColumn db t c := by
        simp only [exec_manipulation]
        rw [if_neg hnoabort]
      rw [heq, hsq]
      have h1 : dbLookup (dbAddColumn db t c) t =
          some (TableState.mk (ts.cols ++ [c]) ts.hasRecords) := by
        unfold dbAddColumn
        rw [dbLookup_dbUpdateTable_self, hts]
        rfl
      rw [db_columns_sqlite_eq _ _ _ h1, db_columns_sqlite_eq _ _ _ hts]
      show ts.cols ++ [c] = ts.cols ++ [zeroDef c]
      rw [zeroDef_eq_self c hcd]
    · cases dflt with
      | some v =>
        have heq : (exec_manipulation d db t (.addColumn c act (some v))).2.2 =
            dbAddColumn db t { c with default := some (v.to_sql_string d) } := by
          simp only [exec_manipulation]
          rw [if_neg hnoabort]
        rw [heq]
        have h1 : dbLookup (dbAddColumn db t { c with default := some (v.to_sql_string d) }) t =
            some (TableState.mk (ts.cols ++ [{ c with default := some (v.to_sql_string d) }]) ts.hasRecords) := by
          unfold dbAddColumn
          rw [dbLookup_dbUpdateTable_self, hts]
          rfl
        rw [db_columns_eq_some d hsq _ _ _ h1, db_columns_eq_some d hsq _ _ _ hts]
        show (ts.cols ++ [{ c with default := some (v.to_sql_string d) }]).map zeroDef =
          ts.cols.map zeroDef ++ [zeroDef c]
        rw [List.map_append]
        rfl
      | none =>
        have heq : (exec_manipulation d db t (.addColumn c act none)).2.2 =
            dbAddColumn db t c := by
          simp only [exec_manipulation]
          rw [if_neg hnoabort]
        rw [heq]
        have h1 : dbLookup (dbAddColumn db t c) t =
            some (TableState.mk (ts.cols ++ [c]) ts.hasRecords) := by
          unfold dbAddColumn
          rw [dbLookup_dbUpdateTable_self, hts]
          rfl
        rw [db_columns_eq_some d hsq _ _ _ h1, db_columns_eq_some d hsq _ _ _ hts]
        show (ts.cols ++ [c]).map zeroDef = ts.cols.map zeroDef ++ [zeroDef c]
        rw [List.map_append]
        rfl
  | alterColumn oldC newC act =>
    have heq : (exec_manipulation d db t (.alterColumn oldC newC act)).2.2 =
        dbReplaceColumn db t newC := by
      simp only [exec_manipulation]
      rw [if_neg hd]
    rw [heq]
    have h1 : dbLookup (dbReplaceColumn db t newC) t =
        some (TableState.mk (List.map (fun c0 => if c0.name = newC.name then newC else c0) ts.cols) ts.hasRecords) := by
      unfold dbReplaceColumn
      rw [dbLookup_dbUpdateTable_self, hts]
      rfl
    by_cases hsq : d = .sqlite
    · have hnd := hq hsq
      rw [hsq, db_columns_sqlite_eq _ _ _ h1, db_columns_sqlite_eq _ _ _ hts]
      show List.map (fun c0 => if c0.name = newC.name then newC else c0) ts.cols =
        List.map (fun c0 => if c0.name = newC.name then zeroDef newC else c0) ts.cols
      simp only [zeroDef_eq_self newC hnd]
    · rw [db_columns_eq_some d hsq _ _ _ h1, db_columns_eq_some d hsq _ _ _ hts]
      exact map_zero_replace ts.cols newC
  | removeColumn n act =>
    have heq : (exec_manipulation d db t (.removeColumn n act)).2.2 =
        dbRemoveColumn db t n := by
      cases act <;> rfl
    rw [heq]
    have h1 : dbLookup (dbRemoveColumn db t n) t =
        some (TableState.mk (List.filter (fun c0 => !(c0.name = n : Bool)) ts.cols) ts.hasRecords) := by
      unfold dbRemoveColumn
      rw [dbLookup_dbUpdateTable_self, hts]
      rfl
    by_cases hsq : d = .sqlite
    · rw [hsq, db_columns_sqlite_eq _ _ _ h1, db_columns_sqlite_eq _ _ _ hts]
      rfl
    · rw [db_columns_eq_some d hsq _ _ _ h1, db_columns_eq_some d hsq _ _ _ hts]
      exact map_zero_filter ts.cols n
  | renameColumn o n =>
    have heq : (exec_manipulation d db t (.renameColumn o n)).2.2 =
        dbRenameColumn db t o n := rfl
    rw [heq]
    have h1 : dbLookup (dbRenameColumn db t o n) t =
        some (TableState.mk (List.map (fun c0 => if c0.name = o then { c0 with name := n } else c0) ts.cols) ts.hasRecords) := by
      unfold dbRenameColumn
      rw [dbLookup_dbUpdateTable_self, hts]
      rfl
    by_cases hsq : d = .sqlite
    · rw [hsq, db_columns_sqlite_eq _ _ _ h1, db_columns_sqlite_eq _ _ _ hts]
      rfl
    · rw [db_columns_eq_some d hsq _ _ _ h1, db_columns_eq_some d hsq _ _ _ hts]
      exact map_zero_rename ts.cols o n

/-- Column-level DDL never changes the live table-name list. -/
theorem exec_manipulation_dbNames (d : SQLDialect) (db : DBState) (t : String)
    (mp : ColumnManipulation) :
    dbNames (exec_manipulation d db t mp).2.2 = dbNames db := by
  cases mp with
  | addColumn c act dflt =>
    simp only [exec_manipulation]
    split
    · rfl
    · cases dflt with
      | none =>
        cases act <;>
          exact dbNames_dbUpdateTable db t (fun ts => { ts with cols := ts.cols ++ [c] })
      | some v =>
        cases act <;>
          exact dbNames_dbUpdateTable db t
            (fun ts => { ts with cols := ts.cols ++ [{ c with default := some (v.to_sql_string d) }] })
  | alterColumn oldC newC act =>
    have h22 : (exec_manipulation d db t (.alterColumn oldC newC act)).2.2 =
        if d = .postgresql then dbPsqlAlter db t oldC newC
        else dbReplaceColumn db t newC := by
      by_cases hp : d = .postgresql <;> simp [exec_manipulation, hp]
    rw [h22]
    by_cases hp : d = .postgresql
    · rw [if_pos hp]
      exact dbNames_dbUpdateTable db t _
    · rw [if_neg hp]
      exact dbNames_dbUpdateTable db t _
  | removeColumn n act =>
    cases act <;>
      exact dbNames_dbUpdateTable db t
        (fun ts => { ts with cols := ts.cols.filter (fun c0 => !(c0.name = n : Bool)) })
  | renameColumn o n =>
    exact dbNames_dbUpdateTable db t
      (fun ts =>
        { ts with cols := List.map (fun c0 => if c0.name = o then { c0 with name := n } else c0) ts.cols })

/-- Column-level DDL on one table leaves all other tables alone. -/
theorem exec_manipulation_dbLookup_ne (d : SQLDialect) (db : DBState) (t n : String)
    (mp : ColumnManipulation) (h : n ≠ t) :
    dbLookup (exec_manipulation d db t mp).2.2 n = dbLookup db n := by
  cases mp with
  | addColumn c act dflt =>
    simp only [exec_manipulation]
    split
    · rfl
    · cases dflt with
      | none =>
        cases act <;>
          exact dbLookup_dbUpdateTable_ne db t n
            (fun ts => { ts with cols := ts.cols ++ [c] }) h
      | some v =>
        cases act <;>
          exact dbLookup_dbUpdateTable_ne db t n
            (fun ts => { ts with cols := ts.cols ++ [{ c with default := some (v.to_sql_string d) }] }) h
  | alterColumn oldC newC act =>
    have h22 : (exec_manipulation d db t (.alterColumn oldC newC act)).2.2 =
        if d = .postgresql then dbPsqlAlter db t oldC newC
        else dbReplaceColumn db t newC := by
      by_cases hp : d = .postgresql <;> simp [exec_manipulation, hp]
    rw [h22]
    by_cases hp : d = .postgresql
    · rw [if_pos hp]
      exact dbLookup_dbUpdateTable_ne db t n _ h
    · rw [if_neg hp]
      exact dbLookup_dbUpdateTable_ne db t n _ h
  | removeColumn n2 act =>
    cases act <;>
      exact dbLookup_dbUpdateTable_ne db t n
        (fun ts => { ts with cols := ts.cols.filter (fun c0 => !(c0.name = n2 : Bool)) }) h
  | renameColumn o n2 =>
    exact dbLookup_dbUpdateTable_ne db t n
      (fun ts =>
        { ts with cols := List.map (fun c0 => if c0.name = o then { c0 with name := n2 } else c0) ts.cols }) h

/-- Off PostgreSQL, executing a manipulation list transforms the
introspected columns as the pure replay does, keeps the table-name list,
and leaves other tables alone. -/
theorem exec_manips_read (d : SQLDialect) (hd : d ≠ .postgresql) (t : String) :
    ∀ (ms : List ColumnManipulation) (db : DBState),
      t ∈ dbNames db →
      (table_has_records db t = false ∨
        ∀ mp ∈ ms, mp.is_add_column_non_null = false) →
      (d = .sqlite → ∀ mp ∈ ms, mp.writes_no_default) →
      db_columns d (exec_manipulations d db t ms).2.2 t = applyMs (db_columns d db t) ms ∧
        dbNames (exec_manipulations d db t ms).2.2 = dbNames db ∧
        (∀ n, n ≠ t → dbLookup (exec_manipulations d db t ms).2.2 n = dbLookup db n) := by
  intro ms
  induction ms with
  | nil => intro db _ _ _; exact ⟨rfl, rfl, fun n _ => rfl⟩
  | cons mp rest ih =>
    intro db ht hna hqs
    have hone : table_has_records db t = false ∨ mp.is_add_column_non_null = false := by
      rcases hna with h | h
      · exact Or.inl h
      · exact Or.inr (h mp (List.mem_cons_self mp rest))
    have hab : (exec_manipulation d db t mp).2.1 = none :=
      exec_manipulation_no_abort_single d db t mp hone
    have hstep := exec_step_read d hd db t mp ht hab
      (fun hs => hqs hs mp (List.mem_cons_self mp rest))
    have hnames := exec_manipulation_dbNames d db t mp
    have hrec := exec_manipulation_hasRecords d db t t mp
    have hrest : table_has_records (exec_manipulation d db t mp).2.2 t = false ∨
        ∀ mp2 ∈ rest, mp2.is_add_column_non_null = false := by
      rcases hna with h | h
      · exact Or.inl (hrec.trans h)
      · exact Or.inr (fun mp2 h2 => h mp2 (List.mem_cons_of_mem mp h2))
    obtain ⟨ih1, ih2, ih3⟩ := ih (exec_manipulation d db t mp).2.2
      (hnames ▸ ht) hrest
      (fun hs mp2 h2 => hqs hs mp2 (List.mem_cons_of_mem mp h2))
    have hunfold : exec_manipulations d db t (mp :: rest) =
        ((exec_manipulation d db t mp).1 ++
            (exec_manipulations d (exec_manipulation d db t mp).2.2 t rest).1,
          (exec_manipulations d (exec_manipulation d db t mp).2.2 t rest).2.1,
          (exec_manipulations d (exec_manipulation d db t mp).2.2 t rest).2.2) := by
      rw [exec_manipulations]
      simp only [hab]
    rw [hunfold]
    refine ⟨?_, ?_, ?_⟩
    · show db_columns d (exec_manipulations d (exec_manipulation d db t mp).2.2 t rest).2.2 t = _
      rw [ih1, hstep, applyMs_cons]
    · show dbNames (exec_manipulations d (exec_manipulation d db t mp).2.2 t rest).2.2 = _
      rw [ih2, hnames]
    · intro n hn
      show dbLookup (exec_manipulations d (exec_manipulation d db t mp).2.2 t rest).2.2 n = _
      rw [ih3 n hn, exec_manipulation_dbLookup_ne d db t n mp hn]

/-- Against an empty live column list the diff is all adds. -/
theorem diffAdds_nil (specs : List AddSpec) :
    diffAdds [] specs =
      specs.map (fun s => ColumnManipulation.addColumn s.column s.action s.dflt) := by
  induction specs with
  | nil => rfl
  | cons s rest ih =>
    unfold diffAdds at ih ⊢
    rw [List.filterMap_cons]
    simp only [show findByName [] s.column.name = none from rfl]
    rw [ih, List.map_cons]

/-- Replaying a list of adds appends the introspected declared columns. -/
theorem applyMs_adds (specs : List AddSpec) :
    ∀ cols : List SQLColumn,
      applyMs cols (specs.map (fun s => ColumnManipulation.addColumn s.column s.action s.dflt)) =
        cols ++ specs.map (fun s => zeroDef s.column) := by
  induction specs with
  | nil => intro cols; simp [applyMs]
  | cons s rest ih =>
    intro cols
    rw [List.map_cons, applyMs_cons,
      show stepRead cols (ColumnManipulation.addColumn s.column s.action s.dflt) =
        cols ++ [zeroDef s.column] from rfl, ih, List.map_cons, List.append_assoc]
    rfl

/-- A freshly created table is converged, for every dialect: the created
columns carry no default, so the erasing and the preserving introspection
read back the same list. -/
theorem converged_create (d : SQLDialect) (db : DBState) (m : Model)
    (hnd : ((m.specs.map (fun s => s.column.name)).Nodup))
    (hdef : ∀ s ∈ m.specs, s.column.default = none) :
    manipulations (db_columns d (dbCreateTable db m) m.tableName) m = [] := by
  have hdm : ∀ c ∈ decode_model_columns m, c.default = none := by
    intro c hc
    obtain ⟨s, hs2, hsc⟩ := List.mem_map.mp hc
    rw [← hsc]
    exact hdef s hs2
  have hread : db_columns d (dbCreateTable db m) m.tableName =
      (decode_model_columns m).map zeroDef := by
    by_cases hs : d = .sqlite
    · rw [hs, db_columns_sqlite_eq _ _ _ (dbLookup_dbCreateTable_self db m),
        map_zeroDef_id (decode_model_columns m) hdm]
    · exact db_columns_eq_some d hs _ _ _ (dbLookup_dbCreateTable_self db m)
  rw [hread]
  have h := converged_applyMs m [] hnd hdef
  have he : applyMs [] (manipulations [] m) = (decode_model_columns m).map zeroDef := by
    rw [manipulations_eq [] m]
    have hrm : diffRemoves [] (decode_model_columns m) = [] := rfl
    rw [hrm, List.append_nil, diffAdds_nil, applyMs_adds, List.nil_append,
      decode_model_columns, List.map_map]
    rfl
  rw [he] at h
  exact h

/-- An empty manipulation list means no alter is needed. -/
theorem need_false_of_manips_nil (dbCols : List SQLColumn) (m : Model)
    (h : manipulations dbCols m = []) :
    need_to_alter_any_columns dbCols (decode_model_columns m) = false := by
  cases hn : need_to_alter_any_columns dbCols (decode_model_columns m) with
  | false => rfl
  | true =>
    exfalso
    unfold need_to_alter_any_columns at hn
    obtain ⟨c, hc, hf⟩ := List.any_eq_true.mp hn
    obtain ⟨s, hs, hsc⟩ := List.mem_map.mp hc
    cases hfind : findByName dbCols c.name with
    | none => rw [hfind] at hf; exact absurd hf (by simp)
    | some dbc =>
      rw [hfind] at hf
      have hdifs : colDiffers dbc s.column = true := by rw [hsc]; exact hf
      have hfind2 : findByName dbCols s.column.name = some dbc := by
        rw [hsc]
        exact hfind
      have hmem : ColumnManipulation.alterColumn dbc s.column s.action ∈
          manipulations dbCols m := by
        rw [manipulations_eq]
        apply List.mem_append_left
        apply List.mem_filterMap.mpr
        refine ⟨s, hs, ?_⟩
        rw [hfind2]
        simp [hdifs]
      rw [h] at hmem
      exact absurd hmem (List.not_mem_nil _)

/-- The rename step does nothing when the table name is already live. -/
theorem renameStep_mem (db : DBState) (ws : List String) (m : Model)
    (hmem : m.tableName ∈ ws) :
    renameStep db ws m = ([], db, ws) := by
  cases hm : m.migration with
  | none => simp [renameStep, hm]
  | some mig => simp [renameStep, hm, hmem]

/-- Processing a converged table emits nothing and changes nothing. -/
theorem processModel_converged_step (d : SQLDialect) (db : DBState)
    (ws : List String) (m : Model) (hv : m.isVirtual = false)
    (hmem : m.tableName ∈ ws)
    (hcv : manipulations (db_columns d db m.tableName) m = []) :
    processModel d db ws m = ⟨[], none, db, ws.erase m.tableName⟩ := by
  have hrs : renameStep db ws m = ([], db, ws) := renameStep_mem db ws m hmem
  have h2 : m.tableName ∈ (renameStep db ws m).2.2 := by rw [hrs]; exact hmem
  have h3 : (need_to_alter_any_columns (db_columns d (renameStep db ws m).2.1 m.tableName)
      (decode_model_columns m) && (d = .sqlite : Bool)) = false := by
    rw [hrs]
    show (need_to_alter_any_columns (db_columns d db m.tableName)
      (decode_model_columns m) && _) = false
    rw [need_false_of_manips_nil (db_columns d db m.tableName) m hcv]
    exact Bool.false_and _
  have h4 : (table_has_records (renameStep db ws m).2.1 m.tableName &&
      (manipulations (db_columns d (renameStep db ws m).2.1 m.tableName) m).any
        (·.is_add_column_non_null)) = false := by
    rw [hrs]
    show (table_has_records db m.tableName &&
      (manipulations (db_columns d db m.tableName) m).any _) = false
    rw [hcv]
    show (table_has_records db m.tableName && false) = false
    exact Bool.and_false _
  rw [processModel_exec d db ws m hv h2 h3 h4, hrs]
  show StepResult.mk ([] ++ (exec_manipulations d db m.tableName
    (manipulations (db_columns d db m.tableName) m)).1) _ _ _ = _
  rw [hcv]
  rfl

/-- The whole model pass over a converged database emits nothing,
changes nothing, and empties the working set. -/
theorem runModels_converged_pass (d : SQLDialect) :
    ∀ (models : List Model) (db : DBState) (ws : List String),
      ws.Nodup →
      ((models.filter (fun m2 => !m2.isVirtual)).map Model.tableName).Nodup →
      (∀ x, x ∈ ws ↔ x ∈ (models.filter (fun m2 => !m2.isVirtual)).map Model.tableName) →
      (∀ m2 ∈ models, m2.isVirtual = false →
        manipulations (db_columns d db m2.tableName) m2 = []) →
      runModels d db ws models = ⟨[], none, db, []⟩ := by
  intro models
  induction models with
  | nil =>
    intro db ws _ _ hiff _
    have : ws = [] := by
      apply List.eq_nil_iff_forall_not_mem.mpr
      intro x hx
      have h2 := (hiff x).mp hx
      simp at h2
    rw [this]
    rfl
  | cons m rest ih =>
    intro db ws hnd hmn hiff hcv
    cases hv : m.isVirtual with
    | true =>
      have hstep := processModel_virtual d db ws m hv
      rw [runModels, hstep]
      have hfilter : (m :: rest).filter (fun m2 => !m2.isVirtual) =
          rest.filter (fun m2 => !m2.isVirtual) := by
        rw [List.filter_cons, hv]
        simp
      rw [hfilter] at hmn hiff
      have hrest := ih db ws hnd hmn hiff
        (fun m2 h2 hv2 => hcv m2 (List.mem_cons_of_mem m h2) hv2)
      rw [hrest]
      rfl
    | false =>
      have hfilter : (m :: rest).filter (fun m2 => !m2.isVirtual) =
          m :: rest.filter (fun m2 => !m2.isVirtual) := by
        rw [List.filter_cons, hv]
        simp
      rw [hfilter] at hmn hiff
      rw [List.map_cons] at hmn hiff
      have hmem : m.tableName ∈ ws :=
        (hiff m.tableName).mpr (List.mem_cons_self _ _)
      have hstep := processModel_converged_step d db ws m hv hmem
        (hcv m (List.mem_cons_self m rest) hv)
      rw [runModels, hstep]
      have hnodup2 := List.nodup_cons.mp hmn
      have hiff2 : ∀ x, x ∈ ws.erase m.tableName ↔
          x ∈ (rest.filter (fun m2 => !m2.isVirtual)).map Model.tableName := by
        intro x
        rw [List.Nodup.mem_erase_iff hnd]
        constructor
        · rintro ⟨hxne, hxw⟩
          rcases List.mem_cons.mp ((hiff x).mp hxw) with heq | hm
          · exact absurd heq hxne
          · exact hm
        · intro hx
          refine ⟨?_, (hiff x).mpr (List.mem_cons_of_mem _ hx)⟩
          intro heq
          rw [heq] at hx
          exact hnodup2.1 hx
      have hrest := ih db (ws.erase m.tableName) (hnd.erase _) hnodup2.2 hiff2
        (fun m2 h2 hv2 => hcv m2 (List.mem_cons_of_mem m h2) hv2)
      rw [hrest]
      rfl

/-- Membership in the names after a drop. -/
theorem mem_dbNames_dbDropTable (db : DBState) (t n : String) :
    n ∈ dbNames (dbDropTable db t) ↔ n ∈ dbNames db ∧ n ≠ t := by
  rw [dbNames_dbDropTable]
  simp [List.mem_filter]

/-- Dropping preserves distinctness of names. -/
theorem nodup_dbNames_dbDropTable (db : DBState) (t : String)
    (h : (dbNames db).Nodup) : (dbNames (dbDropTable db t)).Nodup := by
  rw [dbNames_dbDropTable]
  exact h.filter _

/-- Membership in the names after a create. -/
theorem mem_dbNames_dbCreateTable (db : DBState) (m : Model) (n : String) :
    n ∈ dbNames (dbCreateTable db m) ↔
      n = m.tableName ∨ (n ∈ dbNames db ∧ n ≠ m.tableName) := by
  rw [dbNames_dbCreateTable]
  simp [List.mem_filter, List.mem_append]
  tauto

/-- Creating preserves distinctness of names. -/
theorem nodup_dbNames_dbCreateTable (db : DBState) (m : Model)
    (h : (dbNames db).Nodup) : (dbNames (dbCreateTable db m)).Nodup := by
  rw [dbNames_dbCreateTable]
  apply List.Nodup.append (h.filter _) (List.nodup_singleton _)
  intro x hx hx2
  rw [List.mem_filter] at hx
  rw [List.mem_singleton] at hx2
  rw [hx2] at hx
  simpa using hx.2

/-- Membership in the names after a table rename. -/
theorem mem_dbNames_dbRenameTable (db : DBState) (old new n : String) :
    n ∈ dbNames (dbRenameTable db old new) ↔
      (n ∈ dbNames db ∧ n ≠ old) ∨ (n = new ∧ old ∈ dbNames db) := by
  rw [dbNames_dbRenameTable]
  constructor
  · intro h
    rcases List.mem_map.mp h with ⟨x, hx, hfx⟩
    by_cases hxo : x = old
    · rw [if_pos hxo] at hfx
      exact Or.inr ⟨hfx.symm, hxo ▸ hx⟩
    · rw [if_neg hxo] at hfx
      exact Or.inl ⟨hfx ▸ hx, hfx ▸ hxo⟩
  · intro h
    rcases h with ⟨hn, hne⟩ | ⟨hn, hold⟩
    · exact List.mem_map.mpr ⟨n, hn, by rw [if_neg hne]⟩
    · exact List.mem_map.mpr ⟨old, hold, by rw [if_pos rfl, hn]⟩

/-- Renaming to a fresh name preserves distinctness. -/
theorem nodup_dbNames_dbRenameTable (db : DBState) (old new : String)
    (hnew : new ∉ dbNames db) (h : (dbNames db).Nodup) :
    (dbNames (dbRenameTable db old new)).Nodup := by
  rw [dbNames_dbRenameTable]
  apply h.map_on
  intro x hx y hy hf
  by_cases hxo : x = old <;> by_cases hyo : y = old
  · rw [hxo, hyo]
  · rw [if_pos hxo, if_neg hyo] at hf
    exact absurd (hf ▸ hy) hnew
  · rw [if_neg hxo, if_pos hyo] at hf
    exact absurd (hf ▸ hx) hnew
  · rw [if_neg hxo, if_neg hyo] at hf
    exact hf

/-- The run-1 step invariant: off PostgreSQL, processing one model on a
well-formed state keeps the names distinct, keeps the working set inside
the live names, accounts every live-but-unmatched name, converges the
processed table when no abort happens, and leaves unrelated tables
untouched. -/
theorem processModel_master (d : SQLDialect) (hd : d ≠ .postgresql)
    (db : DBState) (ws : List String) (m : Model)
    (hdbn : (dbNames db).Nodup) (hwsn : ws.Nodup) (hsub : ws ⊆ dbNames db)
    (hnd : ((m.specs.map (fun s => s.column.name)).Nodup))
    (hdef : ∀ s ∈ m.specs, s.column.default = none)
    (hsq : d = .sqlite → ∀ s ∈ m.specs, s.dflt = none)
    (hsep : ∀ n ∈ dbNames db, n ∉ ws → m.tableName ≠ n) :
    (dbNames (processModel d db ws m).db).Nodup ∧
      (processModel d db ws m).ws ⊆ dbNames (processModel d db ws m).db ∧
      (∀ n ∈ dbNames (processModel d db ws m).db, n ∉ (processModel d db ws m).ws →
        (n = m.tableName ∧ m.isVirtual = false) ∨ (n ∈ dbNames db ∧ n ∉ ws)) ∧
      (m.isVirtual = false → (processModel d db ws m).abort = none →
        m.tableName ∈ dbNames (processModel d db ws m).db ∧
          manipulations (db_columns d (processModel d db ws m).db m.tableName) m = []) ∧
      (∀ n, n ∉ ws → n ≠ m.tableName →
        dbLookup (processModel d db ws m).db n = dbLookup db n) := by
  by_cases hv : m.isVirtual = true
  · rw [processModel_virtual d db ws m hv]
    refine ⟨hdbn, hsub, fun n hn hnw => Or.inr ⟨hn, hnw⟩, ?_, fun n _ _ => rfl⟩
    intro hvf
    rw [hvf] at hv
    exact absurd hv (by simp)
  · have hv2 : m.isVirtual = false := by revert hv; cases m.isVirtual <;> simp
    rcases renameStep_char db ws m with hrs | ⟨mig, old, hmig, htnw, hfind, hrs⟩
    · -- rename step did nothing
      by_cases hmem : m.tableName ∈ ws
      · -- table exists in the working set
        have h2 : m.tableName ∈ (renameStep db ws m).2.2 := by rw [hrs]; exact hmem
        have ht0 : m.tableName ∈ dbNames db := hsub hmem
        cases h3 : (need_to_alter_any_columns
            (db_columns d (renameStep db ws m).2.1 m.tableName)
            (decode_model_columns m) && (d = .sqlite : Bool)) with
        | true =>
          rw [processModel_abort d db ws m hv2 h2 h3, hrs]
          refine ⟨hdbn, ?_, ?_, ?_, fun n _ _ => rfl⟩
          · intro x hx
            exact hsub (List.erase_subset _ _ hx)
          · intro n hn hnw
            by_cases hnt : n = m.tableName
            · exact Or.inl ⟨hnt, hv2⟩
            · refine Or.inr ⟨hn, fun hnws => hnw ?_⟩
              exact (List.Nodup.mem_erase_iff hwsn).mpr ⟨hnt, hnws⟩
          · intro _ hab
            exact absurd hab (by simp)
        | false =>
          rw [hrs] at h3
          cases h4 : (table_has_records db m.tableName &&
              (manipulations (db_columns d db m.tableName) m).any
                (·.is_add_column_non_null)) with
          | true =>
            have h4b : (table_has_records (renameStep db ws m).2.1 m.tableName &&
                (manipulations (db_columns d (renameStep db ws m).2.1 m.tableName) m).any
                  (·.is_add_column_non_null)) = true := by rw [hrs]; exact h4
            have h3b : (need_to_alter_any_columns
                (db_columns d (renameStep db ws m).2.1 m.tableName)
                (decode_model_columns m) && (d = .sqlite : Bool)) = false := by
              rw [hrs]; exact h3
            rw [processModel_destructive d db ws m hv2 h2 h3b h4b, hrs]
            refine ⟨?_, ?_, ?_, ?_, ?_⟩
            · exact nodup_dbNames_dbCreateTable _ m
                (nodup_dbNames_dbDropTable db m.tableName hdbn)
            · intro x hx
              have hx2 := (List.Nodup.mem_erase_iff hwsn).mp hx
              apply (mem_dbNames_dbCreateTable _ m x).mpr
              exact Or.inr ⟨(mem_dbNames_dbDropTable db m.tableName x).mpr
                ⟨hsub hx2.2, hx2.1⟩, hx2.1⟩
            · intro n hn hnw
              rcases (mem_dbNames_dbCreateTable _ m n).mp hn with hnt | ⟨hnd2, hnt⟩
              · exact Or.inl ⟨hnt, hv2⟩
              · have hn3 := (mem_dbNames_dbDropTable db m.tableName n).mp hnd2
                refine Or.inr ⟨hn3.1, fun hnws => hnw ?_⟩
                exact (List.Nodup.mem_erase_iff hwsn).mpr ⟨hnt, hnws⟩
            · intro _ _
              refine ⟨(mem_dbNames_dbCreateTable _ m m.tableName).mpr (Or.inl rfl), ?_⟩
              exact converged_create d (dbDropTable db m.tableName) m hnd hdef
            · intro n hnw hnt
              rw [dbLookup_dbCreateTable_ne _ m n hnt,
                dbLookup_dbDropTable_ne db m.tableName n hnt]
          | false =>
            have h4b : (table_has_records (renameStep db ws m).2.1 m.tableName &&
                (manipulations (db_columns d (renameStep db ws m).2.1 m.tableName) m).any
                  (·.is_add_column_non_null)) = false := by rw [hrs]; exact h4
            have h3b : (need_to_alter_any_columns
                (db_columns d (renameStep db ws m).2.1 m.tableName)
                (decode_model_columns m) && (d = .sqlite : Bool)) = false := by
              rw [hrs]; exact h3
            rw [processModel_exec d db ws m hv2 h2 h3b h4b, hrs]
            have hcond : table_has_records db m.tableName = false ∨
                ∀ mp ∈ manipulations (db_columns d db m.tableName) m,
                  mp.is_add_column_non_null = false := by
              cases hrec : table_has_records db m.tableName with
              | false => exact Or.inl rfl
              | true =>
                right
                rw [hrec, Bool.true_and] at h4
                exact fun mp hmp => Bool.eq_false_iff.mpr (List.any_eq_false.mp h4 mp hmp)
            obtain ⟨hread, hnames, hlook⟩ := exec_manips_read d hd m.tableName
              (manipulations (db_columns d db m.tableName) m) db ht0 hcond
              (fun hs => manips_writes_no_default (db_columns d db m.tableName) m hdef (hsq hs))
            refine ⟨?_, ?_, ?_, ?_, ?_⟩
            · show (dbNames (exec_manipulations d db m.tableName
                (manipulations (db_columns d db m.tableName) m)).2.2).Nodup
              rw [hnames]
              exact hdbn
            · intro x hx
              show x ∈ dbNames (exec_manipulations d db m.tableName
                (manipulations (db_columns d db m.tableName) m)).2.2
              rw [hnames]
              exact hsub (List.erase_subset _ _ hx)
            · intro n hn hnw
              rw [show dbNames ((exec_manipulations d db m.tableName
                (manipulations (db_columns d db m.tableName) m)).2.2) =
                dbNames db from hnames] at hn
              by_cases hnt : n = m.tableName
              · exact Or.inl ⟨hnt, hv2⟩
              · refine Or.inr ⟨hn, fun hnws => hnw ?_⟩
                exact (List.Nodup.mem_erase_iff hwsn).mpr ⟨hnt, hnws⟩
            · intro _ _
              constructor
              · show m.tableName ∈ dbNames (exec_manipulations d db m.tableName
                  (manipulations (db_columns d db m.tableName) m)).2.2
                rw [hnames]
                exact ht0
              · show manipulations (db_columns d (exec_manipulations d db m.tableName
                  (manipulations (db_columns d db m.tableName) m)).2.2 m.tableName) m = []
                rw [hread]
                exact converged_applyMs m (db_columns d db m.tableName) hnd hdef
            · intro n hnw hnt
              exact hlook n hnt
      · -- create branch
        have h2 : m.tableName ∉ (renameStep db ws m).2.2 := by rw [hrs]; exact hmem
        have htnn : m.tableName ∉ dbNames db := fun hc => (hsep m.tableName hc hmem) rfl
        rw [processModel_create d db ws m hv2 h2, hrs]
        refine ⟨?_, ?_, ?_, ?_, ?_⟩
        · exact nodup_dbNames_dbCreateTable db m hdbn
        · intro x hx
          apply (mem_dbNames_dbCreateTable db m x).mpr
          refine Or.inr ⟨hsub hx, fun hxt => hmem (hxt ▸ hx)⟩
        · intro n hn hnw
          rcases (mem_dbNames_dbCreateTable db m n).mp hn with hnt | ⟨hnd2, hnt⟩
          · exact Or.inl ⟨hnt, hv2⟩
          · exact Or.inr ⟨hnd2, hnw⟩
        · intro _ _
          exact ⟨(mem_dbNames_dbCreateTable db m m.tableName).mpr (Or.inl rfl),
            converged_create d db m hnd hdef⟩
        · intro n hnw hnt
          exact dbLookup_dbCreateTable_ne db m n hnt
    · -- rename fired
      have hpold := List.find?_some hfind
      have holdws : old ∈ ws := of_decide_eq_true hpold
      have hold_names : old ∈ dbNames db := hsub holdws
      have htnn : m.tableName ∉ dbNames db :=
        fun hc => (hsep m.tableName hc htnw) rfl
      have hdbn0 : (dbNames (dbRenameTable db old m.tableName)).Nodup :=
        nodup_dbNames_dbRenameTable db old m.tableName htnn hdbn
      have ht0 : m.tableName ∈ dbNames (dbRenameTable db old m.tableName) :=
        (mem_dbNames_dbRenameTable db old m.tableName m.tableName).mpr
          (Or.inr ⟨rfl, hold_names⟩)
      have h2 : m.tableName ∈ (renameStep db ws m).2.2 := by
        rw [hrs]
        exact List.mem_append_right _ (List.mem_singleton.mpr rfl)
      have htne : m.tableName ∉ ws.erase old :=
        fun hc => htnw (List.erase_subset _ _ hc)
      have hterase : ((ws.erase old ++ [m.tableName]).erase m.tableName) = ws.erase old := by
        rw [List.erase_append_right _ htne, List.erase_cons_head, List.append_nil]
      have hws1mem : ∀ x ∈ ws.erase old, x ∈ ws ∧ x ≠ old := by
        intro x hx
        have h := (List.Nodup.mem_erase_iff hwsn).mp hx
        exact ⟨h.2, h.1⟩
      have hws1sub : ∀ x ∈ ws.erase old, x ∈ dbNames (dbRenameTable db old m.tableName) := by
        intro x hx
        obtain ⟨hxw, hxo⟩ := hws1mem x hx
        exact (mem_dbNames_dbRenameTable db old m.tableName x).mpr
          (Or.inl ⟨hsub hxw, hxo⟩)
      have hlook0 : ∀ n, n ∉ ws → n ≠ m.tableName →
          dbLookup (dbRenameTable db old m.tableName) n = dbLookup db n := by
        intro n hnw hnt
        exact dbLookup_dbRenameTable_ne db old m.tableName n
          (fun hno => hnw (hno ▸ holdws)) hnt
      have hG3core : ∀ n, n ∈ dbNames (dbRenameTable db old m.tableName) →
          n ∉ ws.erase old →
          (n = m.tableName ∧ m.isVirtual = false) ∨ (n ∈ dbNames db ∧ n ∉ ws) := by
        intro n hn hnw
        rcases (mem_dbNames_dbRenameTable db old m.tableName n).mp hn with
          ⟨hnd2, hno⟩ | ⟨hnt, _⟩
        · refine Or.inr ⟨hnd2, fun hnws => hnw ?_⟩
          exact (List.Nodup.mem_erase_iff hwsn).mpr ⟨hno, hnws⟩
        · exact Or.inl ⟨hnt, hv2⟩
      cases h3 : (need_to_alter_any_columns
          (db_columns d (renameStep db ws m).2.1 m.tableName)
          (decode_model_columns m) && (d = .sqlite : Bool)) with
      | true =>
        rw [processModel_abort d db ws m hv2 h2 h3, hrs]
        show (dbNames (dbRenameTable db old m.tableName)).Nodup ∧
          ((ws.erase old ++ [m.tableName]).erase m.tableName) ⊆ _ ∧ _
        rw [hterase]
        refine ⟨hdbn0, hws1sub, hG3core, ?_, hlook0⟩
        intro _ hab
        exact absurd hab (by simp)
      | false =>
        rw [hrs] at h3
        cases h4 : (table_has_records (dbRenameTable db old m.tableName) m.tableName &&
            (manipulations (db_columns d (dbRenameTable db old m.tableName) m.tableName) m).any
              (·.is_add_column_non_null)) with
        | true =>
          have h4b : (table_has_records (renameStep db ws m).2.1 m.tableName &&
              (manipulations (db_columns d (renameStep db ws m).2.1 m.tableName) m).any
                (·.is_add_column_non_null)) = true := by rw [hrs]; exact h4
          have h3b : (need_to_alter_any_columns
              (db_columns d (renameStep db ws m).2.1 m.tableName)
              (decode_model_columns m) && (d = .sqlite : Bool)) = false := by
            rw [hrs]; exact h3
          rw [processModel_destructive d db ws m hv2 h2 h3b h4b, hrs]
          show (dbNames (dbCreateTable (dbDropTable
              (dbRenameTable db old m.tableName) m.tableName) m)).Nodup ∧ _
          rw [hterase]
          refine ⟨?_, ?_, ?_, ?_, ?_⟩
          · exact nodup_dbNames_dbCreateTable _ m
              (nodup_dbNames_dbDropTable _ m.tableName hdbn0)
          · intro x hx
            obtain ⟨hxw, hxo⟩ := hws1mem x hx
            have hxt : x ≠ m.tableName := fun hxt => htnw (hxt ▸ hxw)
            apply (mem_dbNames_dbCreateTable _ m x).mpr
            exact Or.inr ⟨(mem_dbNames_dbDropTable _ m.tableName x).mpr
              ⟨hws1sub x hx, hxt⟩, hxt⟩
          · intro n hn hnw
            rcases (mem_dbNames_dbCreateTable _ m n).mp hn with hnt | ⟨hnd2, hnt⟩
            · exact Or.inl ⟨hnt, hv2⟩
            · have hn3 := (mem_dbNames_dbDropTable _ m.tableName n).mp hnd2
              exact hG3core n hn3.1 hnw
          · intro _ _
            refine ⟨(mem_dbNames_dbCreateTable _ m m.tableName).mpr (Or.inl rfl), ?_⟩
            exact converged_create d (dbDropTable (dbRenameTable db old m.tableName)
              m.tableName) m hnd hdef
          · intro n hnw hnt
            rw [dbLookup_dbCreateTable_ne _ m n hnt,
              dbLookup_dbDropTable_ne _ m.tableName n hnt]
            exact hlook0 n hnw hnt
        | false =>
          have h4b : (table_has_records (renameStep db ws m).2.1 m.tableName &&
              (manipulations (db_columns d (renameStep db ws m).2.1 m.tableName) m).any
                (·.is_add_column_non_null)) = false := by rw [hrs]; exact h4
          have h3b : (need_to_alter_any_columns
              (db_columns d (renameStep db ws m).2.1 m.tableName)
              (decode_model_columns m) && (d = .sqlite : Bool)) = false := by
            rw [hrs]; exact h3
          rw [processModel_exec d db ws m hv2 h2 h3b h4b, hrs]
          have hcond : table_has_records (dbRenameTable db old m.tableName) m.tableName = false ∨
              ∀ mp ∈ manipulations
                (db_columns d (dbRenameTable db old m.tableName) m.tableName) m,
                mp.is_add_column_non_null = false := by
            cases hrec : table_has_records (dbRenameTable db old m.tableName) m.tableName with
            | false => exact Or.inl rfl
            | true =>
              right
              rw [hrec, Bool.true_and] at h4
              exact fun mp hmp => Bool.eq_false_iff.mpr (List.any_eq_false.mp h4 mp hmp)
          obtain ⟨hread, hnames, hlook⟩ := exec_manips_read d hd m.tableName
            (manipulations (db_columns d (dbRenameTable db old m.tableName) m.tableName) m)
            (dbRenameTable db old m.tableName) ht0 hcond
            (fun hs => manips_writes_no_default
              (db_columns d (dbRenameTable db old m.tableName) m.tableName) m hdef (hsq hs))
          show (dbNames (exec_manipulations d (dbRenameTable db old m.tableName) m.tableName
            (manipulations (db_columns d (dbRenameTable db old m.tableName) m.tableName) m)).2.2).Nodup ∧ _
          rw [hterase]
          refine ⟨?_, ?_, ?_, ?_, ?_⟩
          · rw [hnames]
            exact hdbn0
          · intro x hx
            show x ∈ dbNames (exec_manipulations d (dbRenameTable db old m.tableName)
              m.tableName (manipulations
                (db_columns d (dbRenameTable db old m.tableName) m.tableName) m)).2.2
            rw [hnames]
            exact hws1sub x hx
          · intro n hn hnw
            rw [show dbNames ((exec_manipulations d (dbRenameTable db old m.tableName)
              m.tableName (manipulations
                (db_columns d (dbRenameTable db old m.tableName) m.tableName) m)).2.2) =
              dbNames (dbRenameTable db old m.tableName) from hnames] at hn
            exact hG3core n hn hnw
          · intro _ _
            constructor
            · show m.tableName ∈ dbNames (exec_manipulations d
                (dbRenameTable db old m.tableName) m.tableName (manipulations
                  (db_columns d (dbRenameTable db old m.tableName) m.tableName) m)).2.2
              rw [hnames]
              exact ht0
            · show manipulations (db_columns d (exec_manipulations d
                (dbRenameTable db old m.tableName) m.tableName (manipulations
                  (db_columns d (dbRenameTable db old m.tableName) m.tableName) m)).2.2
                m.tableName) m = []
              rw [hread]
              exact converged_applyMs m
                (db_columns d (dbRenameTable db old m.tableName) m.tableName) hnd hdef
          · intro n hnw hnt
            rw [hlook n hnt]
            exact hlook0 n hnw hnt

/-- Reading columns only depends on the table lookup. -/
theorem db_columns_congr (d : SQLDialect) (db1 db2 : DBState) (t : String)
    (h : dbLookup db1 t = dbLookup db2 t) : db_columns d db1 t = db_columns d db2 t := by
  unfold db_columns
  rw [h]

/-- The drop phase: lookups of undropped tables survive, the remaining
names are the undropped ones, and distinctness is preserved. -/
theorem foldl_dropTables :
    ∀ (l : List String) (db : DBState),
      (∀ n, n ∉ l → dbLookup (l.foldl (fun acc t => dbDropTable acc t) db) n = dbLookup db n) ∧
        (∀ n, n ∈ dbNames (l.foldl (fun acc t => dbDropTable acc t) db) ↔
          n ∈ dbNames db ∧ n ∉ l) ∧
        ((dbNames db).Nodup → (dbNames (l.foldl (fun acc t => dbDropTable acc t) db)).Nodup) := by
  intro l
  induction l with
  | nil =>
    intro db
    refine ⟨fun n _ => rfl, fun n => ?_, fun h => h⟩
    simp
  | cons t rest ih =>
    intro db
    obtain ⟨ih1, ih2, ih3⟩ := ih (dbDropTable db t)
    refine ⟨?_, ?_, ?_⟩
    · intro n hn
      have hnr : n ∉ rest := fun hc => hn (List.mem_cons_of_mem t hc)
      have hnt : n ≠ t := fun hc => hn (hc ▸ List.mem_cons_self t rest)
      show dbLookup (rest.foldl (fun acc t => dbDropTable acc t) (dbDropTable db t)) n = _
      rw [ih1 n hnr]
      exact dbLookup_dbDropTable_ne db t n hnt
    · intro n
      show n ∈ dbNames (rest.foldl (fun acc t => dbDropTable acc t) (dbDropTable db t)) ↔ _
      rw [ih2 n, mem_dbNames_dbDropTable]
      constructor
      · rintro ⟨⟨hm, hnt⟩, hnr⟩
        refine ⟨hm, fun hc => ?_⟩
        rcases List.mem_cons.mp hc with heq | hmem
        · exact hnt heq
        · exact hnr hmem
      · rintro ⟨hm, hn⟩
        exact ⟨⟨hm, fun hc => hn (hc ▸ List.mem_cons_self t rest)⟩,
          fun hc => hn (List.mem_cons_of_mem t hc)⟩
    · intro h
      exact ih3 (nodup_dbNames_dbDropTable db t h)

/-- The run-1 pass invariant, by induction over the declared models. -/
theorem runModels_master (d : SQLDialect) (hd : d ≠ .postgresql) :
    ∀ (models : List Model) (db : DBState) (ws : List String),
      (dbNames db).Nodup → ws.Nodup → ws ⊆ dbNames db →
      ((models.map Model.tableName).Nodup) →
      (∀ m ∈ models, ((m.specs.map (fun s => s.column.name)).Nodup) ∧
        ∀ s ∈ m.specs, s.column.default = none) →
      (d = .sqlite → ∀ m ∈ models, ∀ s ∈ m.specs, s.dflt = none) →
      (∀ n ∈ dbNames db, n ∉ ws → ∀ m ∈ models, m.tableName ≠ n) →
      (runModels d db ws models).abort = none →
      (dbNames (runModels d db ws models).db).Nodup ∧
        (runModels d db ws models).ws ⊆ dbNames (runModels d db ws models).db ∧
        (∀ n ∈ dbNames (runModels d db ws models).db, n ∉ (runModels d db ws models).ws →
          (n ∈ (models.filter (fun m2 => !m2.isVirtual)).map Model.tableName) ∨
            (n ∈ dbNames db ∧ n ∉ ws)) ∧
        (∀ m ∈ models, m.isVirtual = false →
          m.tableName ∈ dbNames (runModels d db ws models).db ∧
            manipulations (db_columns d (runModels d db ws models).db m.tableName) m = []) ∧
        (∀ n, n ∉ ws → (∀ m ∈ models, m.tableName ≠ n) →
          dbLookup (runModels d db ws models).db n = dbLookup db n) := by
  intro models
  induction models with
  | nil =>
    intro db ws hdbn hwsn hsub _ _ _ _ _
    exact ⟨hdbn, hsub, fun n hn hnw => Or.inr ⟨hn, hnw⟩,
      fun m hm => absurd hm (List.not_mem_nil m), fun n _ _ => rfl⟩
  | cons m rest ih =>
    intro db ws hdbn hwsn hsub hmn hmods hsq hsep hok
    cases hab : (processModel d db ws m).abort with
    | some a =>
      rw [runModels] at hok
      simp only [hab] at hok
      exact absurd hok (by simp)
    | none =>
      rw [runModels] at hok ⊢
      simp only [hab] at hok ⊢
      have hmodm := hmods m (List.mem_cons_self m rest)
      have hsepm : ∀ n ∈ dbNames db, n ∉ ws → m.tableName ≠ n :=
        fun n hn hnw => hsep n hn hnw m (List.mem_cons_self m rest)
      obtain ⟨s1, s2, s3, s4, s5⟩ := processModel_master d hd db ws m hdbn hwsn hsub
        hmodm.1 hmodm.2 (fun hs => hsq hs m (List.mem_cons_self m rest)) hsepm
      have hwsn2 : (processModel d db ws m).ws.Nodup := processModel_ws_nodup d db ws m hwsn
      have hmn2 := List.nodup_cons.mp hmn
      have hsep2 : ∀ n ∈ dbNames (processModel d db ws m).db,
          n ∉ (processModel d db ws m).ws → ∀ m2 ∈ rest, m2.tableName ≠ n := by
        intro n hn hnw m2 hm2
        rcases s3 n hn hnw with ⟨hnt, _⟩ | ⟨hnd2, hnws⟩
        · rw [hnt]
          intro hc
          exact hmn2.1 (hc ▸ List.mem_map_of_mem Model.tableName hm2)
        · exact hsep n hnd2 hnws m2 (List.mem_cons_of_mem m hm2)
      obtain ⟨i1, i2, i3, i4, i5⟩ := ih (processModel d db ws m).db
        (processModel d db ws m).ws s1 hwsn2 s2 hmn2.2
        (fun m2 h2 => hmods m2 (List.mem_cons_of_mem m h2))
        (fun hs m2 h2 => hsq hs m2 (List.mem_cons_of_mem m h2)) hsep2 hok
      refine ⟨i1, i2, ?_, ?_, ?_⟩
      · intro n hn hnw
        rcases i3 n hn hnw with hleft | ⟨hnd2, hnws⟩
        · left
          rcases List.mem_map.mp hleft with ⟨m2, hm2, hname⟩
          have hm2f := List.mem_filter.mp hm2
          rw [← hname]
          apply List.mem_map_of_mem Model.tableName
          exact List.mem_filter.mpr ⟨List.mem_cons_of_mem m hm2f.1, hm2f.2⟩
        · rcases s3 n hnd2 hnws with ⟨hnt, hnv⟩ | hright
          · left
            apply List.mem_map.mpr
            refine ⟨m, ?_, hnt.symm⟩
            apply List.mem_filter.mpr
            refine ⟨List.mem_cons_self m rest, ?_⟩
            rw [hnv]
            rfl
          · exact Or.inr hright
      · intro m2 hm2 hv2
        rcases List.mem_cons.mp hm2 with heq | hmem
        · subst heq
          obtain ⟨hmemdb, hconv⟩ := s4 hv2 hab
          have hnotws : m2.tableName ∉ (processModel d db ws m2).ws :=
            processModel_ws_notmem d db ws m2 hwsn hv2
          have hnames2 : ∀ m3 ∈ rest, m3.tableName ≠ m2.tableName := by
            intro m3 hm3 hc
            exact hmn2.1 (hc ▸ List.mem_map_of_mem Model.tableName hm3)
          have hlookpres := i5 m2.tableName hnotws hnames2
          constructor
          · rw [← dbLookup_isSome_iff] at hmemdb ⊢
            rw [hlookpres]
            exact hmemdb
          · rw [db_columns_congr d _ _ _ hlookpres]
            exact hconv
        · exact i4 m2 hmem hv2
      · intro n hnw hnames
        have hn2 : n ∉ (processModel d db ws m).ws :=
          fun hc => hnw (processModel_ws_sub d db ws m hc)
        rw [i5 n hn2 (fun m2 h2 => hnames m2 (List.mem_cons_of_mem m h2))]
        exact s5 n hnw (hnames m (List.mem_cons_self m rest)).symm

/-- C3 (amended): off PostgreSQL, a completed convergence run is
idempotent — running convergence again on the resulting database executes
no statement, reaches no abort, changes nothing, and leaves an empty drop
set — provided declared table names are distinct, declared column names
are distinct per model, declared columns carry no default literal (as the
field-to-column translation guarantees), and, on SQLite, no declared
default value is attached to any column (otherwise the ADD COLUMN of the
first run stores a default that the default-preserving SQLite
introspection keeps reporting as a difference). -/
theorem c3_idempotent_non_postgres (d : SQLDialect) (db : DBState) (models : List Model)
    (hd : d ≠ .postgresql)
    (hmn : (models.map Model.tableName).Nodup)
    (hcols : ∀ m ∈ models, ((m.specs.map (fun s => s.column.name)).Nodup) ∧
      ∀ s ∈ m.specs, s.column.default = none)
    (hsq : d = .sqlite → ∀ m ∈ models, ∀ s ∈ m.specs, s.dflt = none)
    (hdbn : (dbNames db).Nodup)
    (hok : (migrate d db models).abort = none) :
    migrate d (migrate d db models).db models =
      ⟨[], none, (migrate d db models).db, []⟩ := by
  have habr := migrate_abort_none d db models hok
  rw [migrate_run_eq d db models habr]
  obtain ⟨f1, f2, f3⟩ := foldl_dropTables (runModels d db (dbNames db) models).ws
    (runModels d db (dbNames db) models).db
  obtain ⟨m1, m2, m3, m4, m5⟩ := runModels_master d hd models db (dbNames db)
    hdbn hdbn (fun x hx => hx) hmn hcols hsq
    (fun n hn hnw _ _ => ((hnw hn).elim)) habr
  show migrate d ((runModels d db (dbNames db) models).ws.foldl
      (fun acc t => dbDropTable acc t) (runModels d db (dbNames db) models).db) models = _
  set db1 := (runModels d db (dbNames db) models).ws.foldl
    (fun acc t => dbDropTable acc t) (runModels d db (dbNames db) models).db with hdb1
  have nodup1 : (dbNames db1).Nodup := f3 m1
  have nodupfilter : ((models.filter (fun m2 => !m2.isVirtual)).map Model.tableName).Nodup :=
    List.Nodup.sublist (List.Sublist.map _ (List.filter_sublist _)) hmn
  have hiff : ∀ x, x ∈ dbNames db1 ↔
      x ∈ (models.filter (fun m2 => !m2.isVirtual)).map Model.tableName := by
    intro x
    constructor
    · intro hx
      obtain ⟨hx1, hx2⟩ := (f2 x).mp hx
      rcases m3 x hx1 hx2 with hleft | ⟨hin, hnotin⟩
      · exact hleft
      · exact absurd hin hnotin
    · intro hx
      obtain ⟨m, hmf, hname⟩ := List.mem_map.mp hx
      have hmfil := List.mem_filter.mp hmf
      have hv : m.isVirtual = false := by
        have h2 := hmfil.2
        revert h2
        cases m.isVirtual <;> simp
      obtain ⟨hmemdb, _⟩ := m4 m hmfil.1 hv
      have hnotws : m.tableName ∉ (runModels d db (dbNames db) models).ws :=
        runModels_notmem d models db (dbNames db) hdbn m hmfil.1 hv habr
      exact (f2 x).mpr ⟨hname ▸ hmemdb, hname ▸ hnotws⟩
  have hcv1 : ∀ m ∈ models, m.isVirtual = false →
      manipulations (db_columns d db1 m.tableName) m = [] := by
    intro m hm hv
    obtain ⟨hmemdb, hconv⟩ := m4 m hm hv
    have hnotws : m.tableName ∉ (runModels d db (dbNames db) models).ws :=
      runModels_notmem d models db (dbNames db) hdbn m hm hv habr
    rw [db_columns_congr d db1 (runModels d db (dbNames db) models).db m.tableName
      (f1 m.tableName hnotws)]
    exact hconv
  have hrun2 := runModels_converged_pass d models db1 (dbNames db1) nodup1
    nodupfilter hiff hcv1
  show migrate d db1 models = _
  rw [migrate, hrun2]
  rfl

/-- C3 witness: idempotence at a concrete MySQL run. -/
theorem c3_idempotent_non_postgres_witness :
    migrate .mysql (migrate .mysql c3DB [c3Model]).db [c3Model] =
      ⟨[], none, (migrate .mysql c3DB [c3Model]).db, []⟩ :=
  c3_idempotent_non_postgres .mysql c3DB [c3Model] (by decide) (by decide)
    (by
      intro m hm
      rw [List.mem_singleton] at hm
      rw [hm]
      exact ⟨by decide, by decide⟩)
    (fun h => absurd h (by decide))
    (by decide) (by decide)
